import Mathlib

/-!
Verification of the sopel dice plugin (`sopel/builtins/dice.score.py`).

The Python module is shallowly embedded here:

* Python `dict[int, int]` objects (the `dice` and `dropped` members of
  `DicePouch`) become association lists `List (Int × Int)` in insertion
  order, with `dictGet`, `dictSet`, `containsKey`, `dictDel` mirroring
  `d[k]` / `d.get(k, 0)`, `d[k] = v`, `k in d`, and `del d[k]`.
* Randomness (`random.randint`) is an oracle: functions that roll dice take
  the list of drawn values as a parameter, and theorems hypothesise the
  `randint` contract (length = dice count, each value in `[1, faces]`).
* The SQLite table `dice_highscores` becomes a `List HSRow`; `DELETE`,
  `SELECT ... fetchone`, `REPLACE INTO` and `ORDER BY ... LIMIT` become
  `List.filter`, `List.find?`, filter-and-append, and a stable insertion
  sort followed by `List.take`.
* The regular expression `(?P<dice_num>-?\d*) d (?P<dice_type>-?\d+)
  (v(?P<drop_lowest>-?\d+))?` (IGNORECASE, VERBOSE) and `re.finditer` /
  `re.sub` are implemented as an explicit scanner over `List Char`.
-/

set_option linter.unusedVariables false

/-! ## Association lists standing in for Python `dict[int, int]` -/

/-- Lookup mirroring Python `d.get(k, 0)` (and `d[k]` where the key exists). -/
def dictGet (d : List (Int × Int)) (k : Int) : Int :=
  match d.find? (fun p => p.1 == k) with
  | some p => p.2
  | none => 0

/-- Key-membership test mirroring Python `k in d`. -/
def containsKey (d : List (Int × Int)) (k : Int) : Bool :=
  d.any (fun p => p.1 == k)

/-- Assignment mirroring Python `d[k] = v`: update in place when the key
exists, append when it is new (Python dicts keep insertion order). -/
def dictSet (d : List (Int × Int)) (k v : Int) : List (Int × Int) :=
  if containsKey d k then d.map (fun p => if p.1 == k then (k, v) else p)
  else d ++ [(k, v)]

/-- Deletion mirroring Python `del d[k]`. -/
def dictDel (d : List (Int × Int)) (k : Int) : List (Int × Int) :=
  d.filter (fun p => p.1 != k)

/-- The keys of the dictionary. -/
def dictKeys (d : List (Int × Int)) : List Int :=
  d.map Prod.fst

/-- Sum of all stored values, i.e. `sum(d.values())`. -/
def sumCounts (d : List (Int × Int)) : Int :=
  (d.map Prod.snd).sum

theorem dictGet_nil (k : Int) : dictGet [] k = 0 := rfl

theorem dictGet_cons (a : Int × Int) (d : List (Int × Int)) (k : Int) :
    dictGet (a :: d) k = if a.1 = k then a.2 else dictGet d k := by
  by_cases h : a.1 = k <;> simp [dictGet, List.find?_cons, h]

theorem containsKey_iff (d : List (Int × Int)) (k : Int) :
    containsKey d k = true ↔ k ∈ dictKeys d := by
  induction d with
  | nil => simp [containsKey, dictKeys]
  | cons a d ih =>
    simp only [containsKey, List.any_cons, dictKeys, List.map_cons, List.mem_cons] at *
    constructor
    · intro h
      rcases Bool.or_eq_true_iff.mp h with h | h
      · exact Or.inl (beq_iff_eq.mp h).symm
      · exact Or.inr (ih.mp h)
    · intro h
      rcases h with h | h
      · exact Bool.or_eq_true_iff.mpr (Or.inl (beq_iff_eq.mpr h.symm))
      · exact Bool.or_eq_true_iff.mpr (Or.inr (ih.mpr h))

theorem containsKey_false_iff (d : List (Int × Int)) (k : Int) :
    containsKey d k = false ↔ k ∉ dictKeys d := by
  rw [← containsKey_iff]
  cases h : containsKey d k <;> simp [h]

theorem mem_keys_of_mem {d : List (Int × Int)} {p : Int × Int} (h : p ∈ d) :
    p.1 ∈ dictKeys d :=
  List.mem_map_of_mem Prod.fst h

theorem dictGet_eq_zero_of_not_contains {d : List (Int × Int)} {k : Int}
    (h : containsKey d k = false) : dictGet d k = 0 := by
  induction d with
  | nil => rfl
  | cons a d ih =>
    simp only [containsKey, List.any_cons, Bool.or_eq_false_iff] at h
    rw [dictGet_cons]
    rw [if_neg (by simpa using h.1)]
    exact ih h.2

theorem contains_of_dictGet_ne_zero {d : List (Int × Int)} {k : Int}
    (h : dictGet d k ≠ 0) : containsKey d k = true := by
  by_contra hc
  exact h (dictGet_eq_zero_of_not_contains (Bool.eq_false_iff.mpr hc))

theorem dictGet_of_mem {d : List (Int × Int)} {k c : Int}
    (hnd : (dictKeys d).Nodup) (h : (k, c) ∈ d) : dictGet d k = c := by
  induction d with
  | nil => cases h
  | cons a d ih =>
    simp only [dictKeys, List.map_cons, List.nodup_cons] at hnd
    rcases List.mem_cons.mp h with h | h
    · rw [← h, dictGet_cons, if_pos rfl]
    · rw [dictGet_cons]
      have hk : a.1 ≠ k := by
        intro hak
        exact hnd.1 (hak ▸ mem_keys_of_mem h)
      rw [if_neg hk]
      exact ih hnd.2 h

theorem dictGet_nonneg {d : List (Int × Int)} (h : ∀ q ∈ d, 0 ≤ q.2) (k : Int) :
    0 ≤ dictGet d k := by
  induction d with
  | nil => simp [dictGet_nil]
  | cons a d ih =>
    rw [dictGet_cons]
    by_cases hk : a.1 = k
    · rw [if_pos hk]; exact h a (List.mem_cons_self a d)
    · rw [if_neg hk]
      exact ih (fun q hq => h q (List.mem_cons_of_mem a hq))

theorem dictSet_of_not_contains {d : List (Int × Int)} {k : Int} (v : Int)
    (h : containsKey d k = false) : dictSet d k v = d ++ [(k, v)] := by
  simp [dictSet, h]

theorem map_set_id {d : List (Int × Int)} {k : Int} (v : Int)
    (h : containsKey d k = false) :
    d.map (fun p => if p.1 == k then (k, v) else p) = d := by
  induction d with
  | nil => rfl
  | cons a d ih =>
    simp only [containsKey, List.any_cons, Bool.or_eq_false_iff] at h
    simp only [List.map_cons]
    rw [if_neg (by simpa using h.1), ih h.2]

theorem mapSet_cons (a : Int × Int) (d : List (Int × Int)) (k v : Int) :
    (a :: d).map (fun p => if p.1 == k then (k, v) else p) =
      (if a.1 = k then (k, v) else a) :: d.map (fun p => if p.1 == k then (k, v) else p) := by
  by_cases h : a.1 = k <;> simp [h]

theorem dictGet_map_set_self (d : List (Int × Int)) (k v : Int)
    (h : containsKey d k = true) :
    dictGet (d.map (fun p => if p.1 == k then (k, v) else p)) k = v := by
  induction d with
  | nil => simp [containsKey] at h
  | cons a d ih =>
    rw [mapSet_cons, dictGet_cons]
    by_cases hk : a.1 = k
    · rw [if_pos hk]
      simp
    · rw [if_neg hk]
      simp only [if_neg hk]
      simp only [containsKey, List.any_cons, Bool.or_eq_true_iff] at h
      rcases h with h | h
      · exact absurd (beq_iff_eq.mp h) hk
      · exact ih h

theorem dictGet_set_self (d : List (Int × Int)) (k v : Int) :
    dictGet (dictSet d k v) k = v := by
  unfold dictSet
  by_cases h : containsKey d k
  · rw [if_pos h]
    exact dictGet_map_set_self d k v h
  · rw [if_neg h]
    have hc : containsKey d k = false := Bool.eq_false_iff.mpr h
    induction d with
    | nil => rw [List.nil_append, dictGet_cons, if_pos rfl]
    | cons a d ih =>
      simp only [containsKey, List.any_cons, Bool.or_eq_false_iff] at hc
      rw [List.cons_append, dictGet_cons, if_neg (by simpa using hc.1)]
      exact ih (by simp [containsKey, hc.2]) hc.2

theorem dictGet_map_set_ne (d : List (Int × Int)) {k k' : Int} (v : Int) (h : k' ≠ k) :
    dictGet (d.map (fun p => if p.1 == k then (k, v) else p)) k' = dictGet d k' := by
  induction d with
  | nil => rfl
  | cons a d ih =>
    rw [mapSet_cons, dictGet_cons, dictGet_cons]
    by_cases hk : a.1 = k
    · rw [if_pos hk]
      have : ¬ ((k, v).1 = k') := fun hh => h hh.symm
      rw [if_neg this, if_neg (fun hh : a.1 = k' => h (hk ▸ hh : k = k').symm)]
      exact ih
    · rw [if_neg hk]
      by_cases ha : a.1 = k'
      · rw [if_pos ha, if_pos ha]
      · rw [if_neg ha, if_neg ha]
        exact ih

theorem dictGet_set_ne (d : List (Int × Int)) {k k' : Int} (v : Int)
    (h : k' ≠ k) : dictGet (dictSet d k v) k' = dictGet d k' := by
  unfold dictSet
  by_cases hc : containsKey d k
  · rw [if_pos hc]
    exact dictGet_map_set_ne d v h
  · rw [if_neg hc]
    induction d with
    | nil =>
      rw [List.nil_append, dictGet_cons, if_neg (fun hh => h hh.symm), dictGet_nil]
    | cons a d ih =>
      rw [List.cons_append, dictGet_cons, dictGet_cons]
      by_cases ha : a.1 = k'
      · rw [if_pos ha, if_pos ha]
      · rw [if_neg ha, if_neg ha]
        exact ih (fun hcc => hc (by
          simp only [containsKey, List.any_cons, Bool.or_eq_true_iff]
          exact Or.inr hcc))

theorem dictKeys_map_set (d : List (Int × Int)) (k v : Int)
    (h : containsKey d k = true) :
    dictKeys (d.map (fun p => if p.1 == k then (k, v) else p)) = dictKeys d := by
  induction d with
  | nil => rfl
  | cons a d ih =>
    rw [mapSet_cons]
    simp only [dictKeys, List.map_cons]
    by_cases hk : a.1 = k
    · rw [if_pos hk]
      simp only [hk]
      congr 1
      by_cases hc2 : containsKey d k
      · exact ih hc2
      · rw [map_set_id v (Bool.eq_false_iff.mpr hc2)]
    · rw [if_neg hk]
      congr 1
      simp only [containsKey, List.any_cons, Bool.or_eq_true_iff] at h
      rcases h with h | h
      · exact absurd (beq_iff_eq.mp h) hk
      · exact ih h

theorem dictKeys_set_of_contains {d : List (Int × Int)} {k : Int} (v : Int)
    (h : containsKey d k = true) : dictKeys (dictSet d k v) = dictKeys d := by
  unfold dictSet
  rw [if_pos h]
  exact dictKeys_map_set d k v h

theorem dictKeys_set_of_not_contains {d : List (Int × Int)} {k : Int} (v : Int)
    (h : containsKey d k = false) :
    dictKeys (dictSet d k v) = dictKeys d ++ [k] := by
  rw [dictSet_of_not_contains v h]
  simp only [dictKeys, List.map_append, List.map_cons, List.map_nil]

theorem dictKeys_set_nodup {d : List (Int × Int)} {k : Int} (v : Int)
    (h : (dictKeys d).Nodup) : (dictKeys (dictSet d k v)).Nodup := by
  by_cases hc : containsKey d k
  · rw [dictKeys_set_of_contains v hc]; exact h
  · rw [dictKeys_set_of_not_contains v (Bool.eq_false_iff.mpr hc)]
    rw [List.nodup_append]
    refine ⟨h, List.nodup_singleton k, ?_⟩
    intro a ha hb
    rw [List.mem_singleton] at hb
    subst hb
    exact hc ((containsKey_iff d a).mpr ha)

theorem containsKey_set_of_contains {d : List (Int × Int)} {k k' : Int} (v : Int)
    (h : containsKey d k' = true) : containsKey (dictSet d k v) k' = true := by
  rw [containsKey_iff] at *
  by_cases hc : containsKey d k
  · rw [dictKeys_set_of_contains v hc]; exact h
  · rw [dictKeys_set_of_not_contains v (Bool.eq_false_iff.mpr hc)]
    exact List.mem_append_left _ h

theorem sumCounts_nil : sumCounts [] = 0 := rfl

theorem sumCounts_cons (a : Int × Int) (d : List (Int × Int)) :
    sumCounts (a :: d) = a.2 + sumCounts d := by
  simp [sumCounts]

theorem sumCounts_append (d e : List (Int × Int)) :
    sumCounts (d ++ e) = sumCounts d + sumCounts e := by
  simp [sumCounts]

theorem sumCounts_nonneg {d : List (Int × Int)} (h : ∀ q ∈ d, 0 ≤ q.2) :
    0 ≤ sumCounts d := by
  induction d with
  | nil => simp [sumCounts_nil]
  | cons a d ih =>
    rw [sumCounts_cons]
    have := h a (List.mem_cons_self a d)
    have := ih (fun q hq => h q (List.mem_cons_of_mem a hq))
    omega

theorem sumCounts_set_of_not_contains {d : List (Int × Int)} {k : Int} (v : Int)
    (h : containsKey d k = false) :
    sumCounts (dictSet d k v) = sumCounts d + v := by
  rw [dictSet_of_not_contains v h, sumCounts_append, sumCounts_cons, sumCounts_nil]
  ring

theorem sumCounts_set_of_contains {d : List (Int × Int)} {k : Int} (v : Int)
    (hnd : (dictKeys d).Nodup) (h : containsKey d k = true) :
    sumCounts (dictSet d k v) = sumCounts d - dictGet d k + v := by
  unfold dictSet
  rw [if_pos h]
  induction d with
  | nil => simp [containsKey] at h
  | cons a d ih =>
    simp only [dictKeys, List.map_cons, List.nodup_cons] at hnd
    rw [mapSet_cons, sumCounts_cons, sumCounts_cons, dictGet_cons]
    by_cases hk : a.1 = k
    · rw [if_pos hk, if_pos hk]
      have hc2 : containsKey d k = false := by
        rw [containsKey_false_iff]
        intro hmem
        exact hnd.1 (hk ▸ hmem)
      rw [map_set_id v hc2]
      simp only []
      ring
    · rw [if_neg hk, if_neg hk]
      simp only [containsKey, List.any_cons, Bool.or_eq_true_iff] at h
      rcases h with h | h
      · exact absurd (beq_iff_eq.mp h) hk
      · rw [ih hnd.2 h]
        ring

theorem mem_dictSet {d : List (Int × Int)} {k v : Int} {p : Int × Int}
    (h : p ∈ dictSet d k v) : p = (k, v) ∨ (p ∈ d ∧ p.1 ≠ k) := by
  unfold dictSet at h
  by_cases hc : containsKey d k
  · rw [if_pos hc] at h
    rcases List.mem_map.mp h with ⟨q, hq, hqe⟩
    by_cases hqk : q.1 = k
    · rw [if_pos (beq_iff_eq.mpr hqk)] at hqe
      exact Or.inl hqe.symm
    · rw [if_neg (by simpa using hqk)] at hqe
      exact Or.inr ⟨hqe ▸ hq, hqe ▸ hqk⟩
  · rw [if_neg hc] at h
    rcases List.mem_append.mp h with h | h
    · refine Or.inr ⟨h, ?_⟩
      intro hk
      exact hc ((containsKey_iff d k).mpr (hk ▸ mem_keys_of_mem h))
    · exact Or.inl (List.mem_singleton.mp h)

theorem mem_dictDel {d : List (Int × Int)} {k : Int} {p : Int × Int} :
    p ∈ dictDel d k ↔ p ∈ d ∧ p.1 ≠ k := by
  unfold dictDel
  rw [List.mem_filter]
  constructor
  · rintro ⟨h1, h2⟩
    exact ⟨h1, by simpa using h2⟩
  · rintro ⟨h1, h2⟩
    exact ⟨h1, by simpa using h2⟩

theorem dictDel_cons (a : Int × Int) (d : List (Int × Int)) (k : Int) :
    dictDel (a :: d) k = if a.1 = k then dictDel d k else a :: dictDel d k := by
  unfold dictDel
  rw [List.filter_cons]
  by_cases hk : a.1 = k
  · rw [if_neg (by simpa using hk), if_pos hk]
  · rw [if_pos (by simpa using hk), if_neg hk]

theorem dictDel_of_not_contains {d : List (Int × Int)} {k : Int}
    (h : containsKey d k = false) : dictDel d k = d := by
  unfold dictDel
  apply List.filter_eq_self.mpr
  intro p hp
  simp only [bne_iff_ne, ne_eq, decide_eq_true_eq]
  intro hpk
  rw [Bool.eq_false_iff] at h
  exact h ((containsKey_iff d k).mpr (hpk ▸ mem_keys_of_mem hp))

theorem dictKeys_del_nodup {d : List (Int × Int)} (k : Int)
    (h : (dictKeys d).Nodup) : (dictKeys (dictDel d k)).Nodup := by
  have hs : (dictDel d k).Sublist d := List.filter_sublist d
  exact h.sublist (hs.map Prod.fst)

theorem dictGet_del_ne {d : List (Int × Int)} {k k' : Int} (h : k' ≠ k) :
    dictGet (dictDel d k) k' = dictGet d k' := by
  induction d with
  | nil => rfl
  | cons a d ih =>
    rw [dictDel_cons, dictGet_cons]
    by_cases hk : a.1 = k
    · rw [if_pos hk, if_neg (fun ha : a.1 = k' => h (ha.symm.trans hk))]
      exact ih
    · rw [if_neg hk, dictGet_cons]
      by_cases ha : a.1 = k'
      · rw [if_pos ha, if_pos ha]
      · rw [if_neg ha, if_neg ha]
        exact ih

theorem sumCounts_del_of_get_zero {d : List (Int × Int)} {k : Int}
    (hnd : (dictKeys d).Nodup) (h : dictGet d k = 0) :
    sumCounts (dictDel d k) = sumCounts d := by
  induction d with
  | nil => rfl
  | cons a d ih =>
    simp only [dictKeys, List.map_cons, List.nodup_cons] at hnd
    rw [dictGet_cons] at h
    rw [dictDel_cons]
    by_cases hk : a.1 = k
    · rw [if_pos hk]
      rw [if_pos hk] at h
      have hc : containsKey d k = false := by
        rw [containsKey_false_iff]
        intro hmem
        exact hnd.1 (hk ▸ hmem)
      rw [dictDel_of_not_contains hc, sumCounts_cons, h]
      ring
    · rw [if_neg hk, sumCounts_cons, sumCounts_cons]
      rw [if_neg hk] at h
      rw [ih hnd.2 h]

/-! ## Stable insertion sort, modelling Python `sorted` and SQL `ORDER BY` -/

/-- Insert an element into a sorted list, keeping earlier equal elements first
(stability, as Python `sorted` guarantees). -/
def insertSorted {α : Type} (le : α → α → Bool) (x : α) : List α → List α
  | [] => [x]
  | y :: rest => if le x y then x :: y :: rest else y :: insertSorted le x rest

/-- Stable insertion sort by the boolean comparator `le`. -/
def sortListBy {α : Type} (le : α → α → Bool) (l : List α) : List α :=
  l.foldr (insertSorted le) []

theorem insertSorted_perm {α : Type} (le : α → α → Bool) (x : α) (l : List α) :
    (insertSorted le x l).Perm (x :: l) := by
  induction l with
  | nil => exact List.Perm.refl _
  | cons y rest ih =>
    unfold insertSorted
    by_cases h : le x y
    · rw [if_pos h]
    · rw [if_neg h]
      exact (ih.cons y).trans (List.Perm.swap x y rest)

theorem sortListBy_perm {α : Type} (le : α → α → Bool) (l : List α) :
    (sortListBy le l).Perm l := by
  induction l with
  | nil => exact List.Perm.refl _
  | cons y rest ih =>
    unfold sortListBy
    rw [List.foldr_cons]
    exact (insertSorted_perm le y _).trans (ih.cons y)

theorem mem_sortListBy {α : Type} {le : α → α → Bool} {l : List α} {x : α} :
    x ∈ sortListBy le l ↔ x ∈ l :=
  (sortListBy_perm le l).mem_iff

theorem insertSorted_pairwise {α : Type} {le : α → α → Bool}
    (htot : ∀ a b, le a b = false → le b a = true)
    (htrans : ∀ a b c, le a b = true → le b c = true → le a c = true)
    (x : α) {l : List α}
    (h : l.Pairwise (fun a b => le a b = true)) :
    (insertSorted le x l).Pairwise (fun a b => le a b = true) := by
  induction l with
  | nil => simp [insertSorted]
  | cons y rest ih =>
    unfold insertSorted
    rcases List.pairwise_cons.mp h with ⟨hy, hrest⟩
    by_cases hxy : le x y
    · rw [if_pos hxy]
      refine List.pairwise_cons.mpr ⟨?_, h⟩
      intro b hb
      rcases List.mem_cons.mp hb with hb | hb
      · exact hb ▸ hxy
      · exact htrans x y b hxy (hy b hb)
    · rw [if_neg hxy]
      refine List.pairwise_cons.mpr ⟨?_, ih hrest⟩
      intro b hb
      rcases List.mem_cons.mp ((insertSorted_perm le x rest).mem_iff.mp hb) with hb | hb
      · exact hb ▸ htot x y (Bool.eq_false_iff.mpr hxy)
      · exact hy b hb

theorem sortListBy_pairwise {α : Type} {le : α → α → Bool}
    (htot : ∀ a b, le a b = false → le b a = true)
    (htrans : ∀ a b c, le a b = true → le b c = true → le a c = true)
    (l : List α) :
    (sortListBy le l).Pairwise (fun a b => le a b = true) := by
  induction l with
  | nil => simp [sortListBy]
  | cons y rest ih =>
    unfold sortListBy
    rw [List.foldr_cons]
    exact insertSorted_pairwise htot htrans y ih

/-! ## DicePouch (`class DicePouch` of the plugin) -/

/-- `MAX_DICE = 1000` from the plugin. -/
def MAX_DICE : Int := 1000

/-- State of a `DicePouch`: `num`/`type` are the constructor arguments,
`dice` is the kept-dice dict, `dropped` the dropped-dice dict. -/
structure DicePouch where
  num : Int
  type : Int
  dice : List (Int × Int)
  dropped : List (Int × Int)
deriving DecidableEq

/-- Python `d.setdefault(k, v)`: insert `(k, v)` when the key is absent. -/
def pySetdefault (d : List (Int × Int)) (k v : Int) : List (Int × Int) :=
  if containsKey d k then d else d ++ [(k, v)]

/-- One iteration of `DicePouch.roll_dice` for one drawn value `number`:
`count = self.dice.setdefault(number, 0); self.dice[number] = count + 1`. -/
def rollStep (d : List (Int × Int)) (number : Int) : List (Int × Int) :=
  let d1 := pySetdefault d number 0
  dictSet d1 number (dictGet d1 number + 1)

/-- `DicePouch.roll_dice`, with the values drawn by `random.randint(1, type)`
supplied as the oracle list `rolls`: builds the per-face count dict. -/
def rollDiceDict (rolls : List Int) : List (Int × Int) :=
  rolls.foldl rollStep []

/-- `DicePouch.__init__(dice_count, dice_type)` followed by the rolling done
in the constructor, with the random draws given by `rolls`. -/
def DicePouch.make (dice_count dice_type : Int) (rolls : List Int) : DicePouch :=
  { num := dice_count, type := dice_type, dice := rollDiceDict rolls, dropped := [] }

/-- Comparator used by `sorted(self.dice.items(), key=operator.itemgetter(0))`. -/
def leKey (a b : Int × Int) : Bool := decide (a.1 ≤ b.1)

/-- The main loop of `DicePouch.drop_lowest`, iterating over the sorted
snapshot of `self.dice` while mutating `dice`, `dropped` and `n`. -/
def dropLoop : List (Int × Int) → List (Int × Int) → List (Int × Int) → Int →
    List (Int × Int) × List (Int × Int)
  | [], dice, dropped, _ => (dice, dropped)
  | (i, _) :: rest, dice, dropped, n =>
    let count := dictGet dice i
    if n = 0 then (dice, dropped)
    else if n < count then (dictSet dice i (count - n), dictSet dropped i n)
    else dropLoop rest (dictSet dice i 0) (dictSet dropped i count) (n - count)

/-- One iteration of the final cleanup loop of `drop_lowest`:
`if self.dice.get(i, 0) == 0 and i in self.dice: del self.dice[i]`. -/
def cleanupStep (d : List (Int × Int)) (p : Int × Int) : List (Int × Int) :=
  if dictGet d p.1 == 0 && containsKey d p.1 then dictDel d p.1 else d

/-- The cleanup loop of `drop_lowest` over `list(self.dropped.items())`. -/
def cleanupZeros (dice dropped : List (Int × Int)) : List (Int × Int) :=
  dropped.foldl cleanupStep dice

/-- `DicePouch.drop_lowest(n)`. -/
def DicePouch.drop_lowest (p : DicePouch) (n : Int) : DicePouch :=
  let sorted_x := sortListBy leKey p.dice
  let r := dropLoop sorted_x p.dice p.dropped n
  { p with dice := cleanupZeros r.1 r.2, dropped := r.2 }

/-- `DicePouch.get_sum`: sum of the non-dropped dice. -/
def DicePouch.get_sum (p : DicePouch) : Int :=
  p.dice.foldl (fun result fc => result + fc.1 * fc.2) 0

theorem containsKey_append_single (d : List (Int × Int)) (k v : Int) :
    containsKey (d ++ [(k, v)]) k = true := by
  rw [containsKey_iff]
  unfold dictKeys
  rw [List.map_append]
  exact List.mem_append_right _ (by simp)

theorem dictSet_append_single {d : List (Int × Int)} {k : Int} (v w : Int)
    (hc : containsKey d k = false) :
    dictSet (d ++ [(k, v)]) k w = d ++ [(k, w)] := by
  unfold dictSet
  rw [if_pos (containsKey_append_single d k v), List.map_append, map_set_id w hc]
  simp

theorem rollStep_eq (d : List (Int × Int)) (k : Int) :
    rollStep d k = dictSet d k (dictGet d k + 1) := by
  unfold rollStep pySetdefault
  by_cases h : containsKey d k
  · rw [if_pos h]
  · rw [if_neg h]
    have hc : containsKey d k = false := Bool.eq_false_iff.mpr h
    show dictSet (d ++ [(k, 0)]) k (dictGet (d ++ [(k, 0)]) k + 1) =
      dictSet d k (dictGet d k + 1)
    have h0 : d ++ [(k, 0)] = dictSet d k 0 := (dictSet_of_not_contains 0 hc).symm
    have hg : dictGet (d ++ [(k, 0)]) k = 0 := by
      rw [h0, dictGet_set_self]
    rw [hg, dictGet_eq_zero_of_not_contains hc,
      dictSet_append_single 0 (0 + 1) hc, dictSet_of_not_contains (0 + 1) hc]

theorem rollDice_fold_facts (rolls : List Int) :
    ∀ d : List (Int × Int), (dictKeys d).Nodup → (∀ q ∈ d, 1 ≤ q.2) →
      (dictKeys (rolls.foldl rollStep d)).Nodup ∧
      (∀ q ∈ rolls.foldl rollStep d, 1 ≤ q.2) ∧
      sumCounts (rolls.foldl rollStep d) = sumCounts d + (rolls.length : Int) ∧
      (∀ q ∈ rolls.foldl rollStep d, q.1 ∈ dictKeys d ∨ q.1 ∈ rolls) := by
  induction rolls with
  | nil =>
    intro d hnd hpos
    refine ⟨hnd, hpos, by simp, fun q hq => Or.inl (mem_keys_of_mem hq)⟩
  | cons r rest ih =>
    intro d hnd hpos
    rw [List.foldl_cons, rollStep_eq]
    set d1 := dictSet d r (dictGet d r + 1) with hd1
    have hnd1 : (dictKeys d1).Nodup := dictKeys_set_nodup _ hnd
    have hpos1 : ∀ q ∈ d1, 1 ≤ q.2 := by
      intro q hq
      rcases mem_dictSet hq with hq | hq
      · rw [hq]
        have := dictGet_nonneg (fun q hq => le_trans (by norm_num) (hpos q hq)) r
        simpa using this
      · exact hpos q hq.1
    rcases ih d1 hnd1 hpos1 with ⟨h1, h2, h3, h4⟩
    refine ⟨h1, h2, ?_, ?_⟩
    · rw [h3]
      have : sumCounts d1 = sumCounts d + 1 := by
        by_cases hc : containsKey d r
        · rw [hd1, sumCounts_set_of_contains _ hnd hc]
          ring
        · rw [hd1, sumCounts_set_of_not_contains _ (Bool.eq_false_iff.mpr hc),
            dictGet_eq_zero_of_not_contains (Bool.eq_false_iff.mpr hc)]
          ring
      rw [this]
      simp
      ring
    · intro q hq
      rcases h4 q hq with hkey | hkey
      · by_cases hc : containsKey d r
        · rw [hd1, dictKeys_set_of_contains _ hc] at hkey
          exact Or.inl hkey
        · rw [hd1, dictKeys_set_of_not_contains _ (Bool.eq_false_iff.mpr hc)] at hkey
          rcases List.mem_append.mp hkey with hkey | hkey
          · exact Or.inl hkey
          · rw [List.mem_singleton] at hkey
            exact Or.inr (List.mem_cons.mpr (Or.inl hkey))
      · exact Or.inr (List.mem_cons_of_mem r hkey)

theorem rollDiceDict_nodup (rolls : List Int) : (dictKeys (rollDiceDict rolls)).Nodup :=
  (rollDice_fold_facts rolls [] (by simp [dictKeys]) (by simp)).1

theorem rollDiceDict_pos (rolls : List Int) : ∀ q ∈ rollDiceDict rolls, 1 ≤ q.2 :=
  (rollDice_fold_facts rolls [] (by simp [dictKeys]) (by simp)).2.1

theorem rollDiceDict_sum (rolls : List Int) :
    sumCounts (rollDiceDict rolls) = (rolls.length : Int) := by
  have := (rollDice_fold_facts rolls [] (by simp [dictKeys]) (by simp)).2.2.1
  simpa [sumCounts_nil] using this

theorem rollDiceDict_keys_mem (rolls : List Int) :
    ∀ q ∈ rollDiceDict rolls, q.1 ∈ rolls := by
  intro q hq
  rcases (rollDice_fold_facts rolls [] (by simp [dictKeys]) (by simp)).2.2.2 q hq with h | h
  · simp [dictKeys] at h
  · exact h

/-! ## Functional characterisation of the `drop_lowest` loop -/

/-- What the loop of `drop_lowest` appends to `self.dropped` when run over
the sorted entries `s` with `n` dice still to drop. -/
def takeDrop : List (Int × Int) → Int → List (Int × Int)
  | [], _ => []
  | (i, c) :: rest, n =>
    if n = 0 then []
    else if n < c then [(i, n)]
    else (i, c) :: takeDrop rest (n - c)

/-- The updates the loop applies to `self.dice`: each key of `l` is
decremented by the corresponding dropped amount. -/
def decrementAll (d : List (Int × Int)) (l : List (Int × Int)) : List (Int × Int) :=
  l.foldl (fun d q => dictSet d q.1 (dictGet d q.1 - q.2)) d

theorem dropLoop_eq (s : List (Int × Int)) :
    ∀ (dice dropped : List (Int × Int)) (n : Int),
      0 ≤ n →
      (∀ p ∈ s, dictGet dice p.1 = p.2) →
      (dictKeys s).Nodup →
      (∀ k ∈ dictKeys s, containsKey dropped k = false) →
      dropLoop s dice dropped n =
        (decrementAll dice (takeDrop s n), dropped ++ takeDrop s n) := by
  induction s with
  | nil =>
    intro dice dropped n hn hagree hnd hdisj
    simp [dropLoop, takeDrop, decrementAll]
  | cons p rest ih =>
    intro dice dropped n hn hagree hnd hdisj
    obtain ⟨i, c⟩ := p
    have hgi : dictGet dice i = c := hagree (i, c) (List.mem_cons_self _ _)
    simp only [dictKeys, List.map_cons, List.nodup_cons] at hnd
    show (if n = 0 then (dice, dropped)
      else if n < dictGet dice i then
        (dictSet dice i (dictGet dice i - n), dictSet dropped i n)
      else dropLoop rest (dictSet dice i 0) (dictSet dropped i (dictGet dice i))
        (n - dictGet dice i)) =
      (decrementAll dice (takeDrop ((i, c) :: rest) n),
        dropped ++ takeDrop ((i, c) :: rest) n)
    rw [hgi]
    by_cases h0 : n = 0
    · rw [if_pos h0]
      show (dice, dropped) = (_, _)
      unfold takeDrop
      rw [if_pos h0]
      simp [decrementAll]
    · rw [if_neg h0]
      have hdropi : containsKey dropped i = false :=
        hdisj i (by simp [dictKeys])
      by_cases hlt : n < c
      · rw [if_pos hlt]
        unfold takeDrop
        rw [if_neg h0, if_pos hlt]
        unfold decrementAll
        rw [List.foldl_cons, List.foldl_nil, dictSet_of_not_contains n hdropi]
        rw [hgi]
      · rw [if_neg hlt]
        unfold takeDrop
        rw [if_neg h0, if_neg hlt]
        have hrec := ih (dictSet dice i 0) (dictSet dropped i c) (n - c)
          (by omega)
          (by
            intro q hq
            have hne : q.1 ≠ i := by
              intro he
              exact hnd.1 (he ▸ mem_keys_of_mem hq)
            rw [dictGet_set_ne dice 0 hne]
            exact hagree q (List.mem_cons_of_mem _ hq))
          hnd.2
          (by
            intro k hk
            have hne : k ≠ i := by
              intro he
              exact hnd.1 (he ▸ hk)
            rw [containsKey_false_iff]
            rw [dictSet_of_not_contains c hdropi]
            unfold dictKeys
            rw [List.map_append, List.mem_append]
            rintro (hmem | hmem)
            · exact (containsKey_false_iff dropped k).mp
                (hdisj k (List.mem_cons_of_mem _ hk)) hmem
            · simp at hmem
              exact hne hmem)
        rw [hrec, Prod.mk.injEq]
        refine ⟨?_, ?_⟩
        · show decrementAll (dictSet dice i 0) (takeDrop rest (n - c)) =
            decrementAll dice ((i, c) :: takeDrop rest (n - c))
          unfold decrementAll
          rw [List.foldl_cons]
          congr 1
          rw [hgi]
          norm_num
        · rw [dictSet_of_not_contains c hdropi, List.append_assoc]
          rfl

theorem takeDrop_sum {s : List (Int × Int)} :
    ∀ {n : Int}, (∀ q ∈ s, 1 ≤ q.2) → 0 ≤ n →
      sumCounts (takeDrop s n) = min n (sumCounts s) := by
  induction s with
  | nil =>
    intro n hpos hn
    simp [takeDrop, sumCounts_nil]
    omega
  | cons p rest ih =>
    intro n hpos hn
    obtain ⟨i, c⟩ := p
    have hc : 1 ≤ c := hpos (i, c) (List.mem_cons_self _ _)
    have hrest : 0 ≤ sumCounts rest :=
      sumCounts_nonneg (fun q hq => le_trans (by norm_num)
        (hpos q (List.mem_cons_of_mem _ hq)))
    unfold takeDrop
    rw [sumCounts_cons]
    by_cases h0 : n = 0
    · rw [if_pos h0, sumCounts_nil]
      omega
    · rw [if_neg h0]
      by_cases hlt : n < c
      · rw [if_pos hlt, sumCounts_cons, sumCounts_nil]
        simp only []
        omega
      · rw [if_neg hlt, sumCounts_cons]
        rw [ih (fun q hq => hpos q (List.mem_cons_of_mem _ hq)) (by omega)]
        simp only []
        omega

theorem takeDrop_mem {s : List (Int × Int)} :
    ∀ {n : Int} {q : Int × Int}, (∀ q ∈ s, 1 ≤ q.2) → 0 ≤ n →
      q ∈ takeDrop s n → 1 ≤ q.2 ∧ ∃ c, (q.1, c) ∈ s ∧ q.2 ≤ c := by
  induction s with
  | nil =>
    intro n q hpos hn hq
    simp [takeDrop] at hq
  | cons p rest ih =>
    intro n q hpos hn hq
    obtain ⟨i, c⟩ := p
    unfold takeDrop at hq
    by_cases h0 : n = 0
    · rw [if_pos h0] at hq
      simp at hq
    · rw [if_neg h0] at hq
      by_cases hlt : n < c
      · rw [if_pos hlt] at hq
        rw [List.mem_singleton] at hq
        subst hq
        exact ⟨by omega, c, List.mem_cons_self _ _, by omega⟩
      · rw [if_neg hlt] at hq
        rcases List.mem_cons.mp hq with hq | hq
        · subst hq
          exact ⟨hpos (i, c) (List.mem_cons_self _ _), c, List.mem_cons_self _ _, le_refl c⟩
        · rcases ih (fun q hq => hpos q (List.mem_cons_of_mem _ hq)) (by omega) hq
            with ⟨h1, c', hc', hle⟩
          exact ⟨h1, c', List.mem_cons_of_mem _ hc', hle⟩

theorem takeDrop_keys_mem {s : List (Int × Int)} :
    ∀ {n : Int} {q : Int × Int}, q ∈ takeDrop s n → q.1 ∈ dictKeys s := by
  induction s with
  | nil => intro n q hq; simp [takeDrop] at hq
  | cons p rest ih =>
    intro n q hq
    obtain ⟨i, c⟩ := p
    unfold takeDrop at hq
    by_cases h0 : n = 0
    · rw [if_pos h0] at hq; simp at hq
    · rw [if_neg h0] at hq
      by_cases hlt : n < c
      · rw [if_pos hlt, List.mem_singleton] at hq
        subst hq
        simp [dictKeys]
      · rw [if_neg hlt] at hq
        rcases List.mem_cons.mp hq with hq | hq
        · subst hq; simp [dictKeys]
        · exact List.mem_cons_of_mem _ (ih hq)

theorem takeDrop_pairwise {s : List (Int × Int)} :
    ∀ {n : Int}, s.Pairwise (fun a b => a.1 < b.1) →
      (takeDrop s n).Pairwise (fun a b => a.1 < b.1) := by
  induction s with
  | nil => intro n _; simp [takeDrop]
  | cons p rest ih =>
    intro n hs
    obtain ⟨i, c⟩ := p
    rcases List.pairwise_cons.mp hs with ⟨hhead, hrest⟩
    unfold takeDrop
    by_cases h0 : n = 0
    · rw [if_pos h0]; simp
    · rw [if_neg h0]
      by_cases hlt : n < c
      · rw [if_pos hlt]; simp
      · rw [if_neg hlt]
        refine List.pairwise_cons.mpr ⟨?_, ih hrest⟩
        intro q hq
        rcases List.mem_map.mp (takeDrop_keys_mem hq) with ⟨r, hr, hre⟩
        exact hre ▸ hhead r hr

theorem takeDrop_below_full {s : List (Int × Int)} :
    ∀ {n : Int}, s.Pairwise (fun a b => a.1 < b.1) →
      ∀ q ∈ takeDrop s n, ∀ r ∈ s, r.1 < q.1 →
        dictGet (takeDrop s n) r.1 = r.2 := by
  induction s with
  | nil => intro n _ q hq; simp [takeDrop] at hq
  | cons p rest ih =>
    intro n hs q hq r hr hlt'
    obtain ⟨i, c⟩ := p
    rcases List.pairwise_cons.mp hs with ⟨hhead, hrest⟩
    unfold takeDrop at hq ⊢
    by_cases h0 : n = 0
    · rw [if_pos h0] at hq; simp at hq
    · rw [if_neg h0] at hq ⊢
      by_cases hltc : n < c
      · rw [if_pos hltc] at hq
        rw [List.mem_singleton] at hq
        subst hq
        exfalso
        rcases List.mem_cons.mp hr with hre | hre
        · rw [hre] at hlt'
          simp at hlt'
        · have := hhead r hre
          simp only [] at hlt' this
          omega
      · rw [if_neg hltc] at hq ⊢
        rcases List.mem_cons.mp hr with hre | hre
        · subst hre
          rw [dictGet_cons, if_pos rfl]
        · rcases List.mem_cons.mp hq with hq | hq
          · exfalso
            have := hhead r hre
            rw [hq] at hlt'
            simp only [] at hlt' this
            omega
          · rw [dictGet_cons]
            have hir : i ≠ r.1 := by
              have := hhead r hre
              simp only [] at this
              omega
            rw [if_neg hir]
            exact ih hrest q hq r hre hlt'

theorem takeDrop_all {s : List (Int × Int)} :
    ∀ {n : Int}, (∀ q ∈ s, 1 ≤ q.2) → sumCounts s ≤ n → takeDrop s n = s := by
  induction s with
  | nil => intro n _ _; rfl
  | cons p rest ih =>
    intro n hpos hbig
    obtain ⟨i, c⟩ := p
    have hc : 1 ≤ c := hpos (i, c) (List.mem_cons_self _ _)
    have hrest : 0 ≤ sumCounts rest :=
      sumCounts_nonneg (fun q hq => le_trans (by norm_num)
        (hpos q (List.mem_cons_of_mem _ hq)))
    rw [sumCounts_cons] at hbig
    simp only [] at hbig
    unfold takeDrop
    rw [if_neg (by omega), if_neg (by omega)]
    rw [ih (fun q hq => hpos q (List.mem_cons_of_mem _ hq)) (by omega)]

theorem decrementAll_nil (d : List (Int × Int)) : decrementAll d [] = d := rfl

theorem decrementAll_cons (d : List (Int × Int)) (q : Int × Int) (l : List (Int × Int)) :
    decrementAll d (q :: l) =
      decrementAll (dictSet d q.1 (dictGet d q.1 - q.2)) l := rfl

theorem dictGet_decrementAll_not_mem {l : List (Int × Int)} :
    ∀ {d : List (Int × Int)} {k : Int}, k ∉ dictKeys l →
      dictGet (decrementAll d l) k = dictGet d k := by
  induction l with
  | nil => intro d k _; rfl
  | cons q l ih =>
    intro d k hk
    simp only [dictKeys, List.map_cons, List.mem_cons] at hk
    push_neg at hk
    rw [decrementAll_cons, ih (by simpa [dictKeys] using hk.2),
      dictGet_set_ne d _ hk.1]

theorem dictGet_decrementAll {l : List (Int × Int)} :
    ∀ {d : List (Int × Int)}, (dictKeys l).Nodup →
      ∀ k, dictGet (decrementAll d l) k = dictGet d k - dictGet l k := by
  induction l with
  | nil => intro d _ k; simp [decrementAll_nil, dictGet_nil]
  | cons q l ih =>
    intro d hnd k
    simp only [dictKeys, List.map_cons, List.nodup_cons] at hnd
    rw [decrementAll_cons, dictGet_cons]
    by_cases hk : q.1 = k
    · rw [if_pos hk]
      subst hk
      rw [dictGet_decrementAll_not_mem (by simpa [dictKeys] using hnd.1),
        dictGet_set_self]
    · rw [if_neg hk]
      rw [ih hnd.2 k, dictGet_set_ne d _ (fun he => hk he.symm)]

theorem dictKeys_decrementAll {l : List (Int × Int)} :
    ∀ {d : List (Int × Int)}, (∀ q ∈ l, containsKey d q.1 = true) →
      dictKeys (decrementAll d l) = dictKeys d := by
  induction l with
  | nil => intro d _; rfl
  | cons q l ih =>
    intro d hc
    rw [decrementAll_cons,
      ih (by
        intro q' hq'
        rw [containsKey_iff, dictKeys_set_of_contains _ (hc q (List.mem_cons_self _ _)),
          ← containsKey_iff]
        exact hc q' (List.mem_cons_of_mem _ hq')),
      dictKeys_set_of_contains _ (hc q (List.mem_cons_self _ _))]

theorem sumCounts_decrementAll {l : List (Int × Int)} :
    ∀ {d : List (Int × Int)}, (dictKeys d).Nodup →
      (∀ q ∈ l, containsKey d q.1 = true) →
      sumCounts (decrementAll d l) = sumCounts d - sumCounts l := by
  induction l with
  | nil => intro d _ _; simp [decrementAll_nil, sumCounts_nil]
  | cons q l ih =>
    intro d hnd hc
    rw [decrementAll_cons, sumCounts_cons]
    have hcq := hc q (List.mem_cons_self _ _)
    rw [ih (dictKeys_set_nodup _ hnd)
        (by
          intro q' hq'
          rw [containsKey_iff, dictKeys_set_of_contains _ hcq, ← containsKey_iff]
          exact hc q' (List.mem_cons_of_mem _ hq')),
      sumCounts_set_of_contains _ hnd hcq]
    ring

theorem cleanupZeros_subset {dropped : List (Int × Int)} :
    ∀ {dice : List (Int × Int)} {q : Int × Int},
      q ∈ cleanupZeros dice dropped → q ∈ dice := by
  induction dropped with
  | nil => intro dice q hq; exact hq
  | cons p rest ih =>
    intro dice q hq
    unfold cleanupZeros at hq
    rw [List.foldl_cons] at hq
    have hq2 : q ∈ cleanupStep dice p := ih hq
    unfold cleanupStep at hq2
    by_cases hcond : (dictGet dice p.1 == 0 && containsKey dice p.1) = true
    · rw [if_pos hcond] at hq2
      exact (mem_dictDel.mp hq2).1
    · rw [if_neg hcond] at hq2
      exact hq2

theorem cleanupZeros_keys_nodup {dropped : List (Int × Int)} :
    ∀ {dice : List (Int × Int)}, (dictKeys dice).Nodup →
      (dictKeys (cleanupZeros dice dropped)).Nodup := by
  induction dropped with
  | nil => intro dice h; exact h
  | cons p rest ih =>
    intro dice h
    unfold cleanupZeros
    rw [List.foldl_cons]
    apply ih
    unfold cleanupStep
    by_cases hcond : (dictGet dice p.1 == 0 && containsKey dice p.1) = true
    · rw [if_pos hcond]
      exact dictKeys_del_nodup _ h
    · rw [if_neg hcond]
      exact h

theorem cleanupZeros_sum {dropped : List (Int × Int)} :
    ∀ {dice : List (Int × Int)}, (dictKeys dice).Nodup →
      sumCounts (cleanupZeros dice dropped) = sumCounts dice := by
  induction dropped with
  | nil => intro dice _; rfl
  | cons p rest ih =>
    intro dice hnd
    unfold cleanupZeros
    rw [List.foldl_cons]
    by_cases hcond : (dictGet dice p.1 == 0 && containsKey dice p.1) = true
    · have hstep : cleanupStep dice p = dictDel dice p.1 := by
        unfold cleanupStep
        rw [if_pos hcond]
      rw [hstep]
      rw [Bool.and_eq_true] at hcond
      have hz : dictGet dice p.1 = 0 := beq_iff_eq.mp hcond.1
      have hres : sumCounts (cleanupZeros (dictDel dice p.1) rest) =
          sumCounts (dictDel dice p.1) := ih (dictKeys_del_nodup _ hnd)
      unfold cleanupZeros at hres
      rw [hres, sumCounts_del_of_get_zero hnd hz]
    · have hstep : cleanupStep dice p = dice := by
        unfold cleanupStep
        rw [if_neg hcond]
      rw [hstep]
      exact ih hnd

theorem cleanupZeros_no_zero {dropped : List (Int × Int)} :
    ∀ {dice : List (Int × Int)}, (dictKeys dice).Nodup →
      (∀ q ∈ dice, q.2 = 0 → q.1 ∈ dictKeys dropped) →
      ∀ q ∈ cleanupZeros dice dropped, q.2 ≠ 0 := by
  induction dropped with
  | nil =>
    intro dice hnd hz q hq hq0
    have := hz q hq hq0
    simp [dictKeys] at this
  | cons p rest ih =>
    intro dice hnd hz q hq
    unfold cleanupZeros at hq
    rw [List.foldl_cons] at hq
    refine ih ?_ ?_ q hq
    · unfold cleanupStep
      by_cases hcond : (dictGet dice p.1 == 0 && containsKey dice p.1) = true
      · rw [if_pos hcond]; exact dictKeys_del_nodup _ hnd
      · rw [if_neg hcond]; exact hnd
    · intro q' hq' hq'0
      unfold cleanupStep at hq'
      by_cases hcond : (dictGet dice p.1 == 0 && containsKey dice p.1) = true
      · rw [if_pos hcond] at hq'
        rcases mem_dictDel.mp hq' with ⟨hmem, hne⟩
        have := hz q' hmem hq'0
        simp only [dictKeys, List.map_cons, List.mem_cons] at this
        rcases this with h | h
        · exact absurd h hne
        · exact h
      · rw [if_neg hcond] at hq'
        have := hz q' hq' hq'0
        simp only [dictKeys, List.map_cons, List.mem_cons] at this
        rcases this with h | h
        · exfalso
          apply hcond
          rw [Bool.and_eq_true]
          have hget : dictGet dice p.1 = 0 := by
            rw [← h]
            exact dictGet_of_mem hnd (by
              have : q' = (q'.1, q'.2) := rfl
              rw [hq'0] at this
              exact this ▸ hq')
          exact ⟨beq_iff_eq.mpr hget, by
            rw [← h]
            exact (containsKey_iff dice q'.1).mpr (mem_keys_of_mem hq')⟩
        · exact h

theorem dictGet_eq_of_perm {s d : List (Int × Int)} (hperm : s.Perm d)
    (hnd : (dictKeys d).Nodup) (hsnd : (dictKeys s).Nodup) (k : Int) :
    dictGet s k = dictGet d k := by
  by_cases hc : containsKey d k
  · rcases List.mem_map.mp ((containsKey_iff d k).mp hc) with ⟨q, hq, hqe⟩
    have hqd : (k, q.2) ∈ d := by
      have : q = (k, q.2) := by
        rw [← hqe]
      exact this ▸ hq
    have hqs : (k, q.2) ∈ s := hperm.mem_iff.mpr hqd
    rw [dictGet_of_mem hnd hqd, dictGet_of_mem hsnd hqs]
  · have hcs : containsKey s k = false := by
      rw [containsKey_false_iff]
      intro hmem
      rcases List.mem_map.mp hmem with ⟨q, hq, hqe⟩
      exact (containsKey_false_iff d k).mp (Bool.eq_false_iff.mpr hc)
        (hqe ▸ mem_keys_of_mem (hperm.mem_iff.mp hq))
    rw [dictGet_eq_zero_of_not_contains hcs,
      dictGet_eq_zero_of_not_contains (Bool.eq_false_iff.mpr hc)]

theorem sorted_dice_facts (d : List (Int × Int))
    (hnd : (dictKeys d).Nodup) (hpos : ∀ q ∈ d, 1 ≤ q.2) :
    (dictKeys (sortListBy leKey d)).Nodup ∧
    (∀ q ∈ sortListBy leKey d, 1 ≤ q.2) ∧
    (∀ q ∈ sortListBy leKey d, dictGet d q.1 = q.2) ∧
    (sortListBy leKey d).Pairwise (fun a b => a.1 < b.1) ∧
    sumCounts (sortListBy leKey d) = sumCounts d := by
  have hperm := sortListBy_perm leKey d
  have hsnd : (dictKeys (sortListBy leKey d)).Nodup :=
    ((hperm.map Prod.fst).nodup_iff).mpr hnd
  refine ⟨hsnd, ?_, ?_, ?_, ?_⟩
  · intro q hq
    exact hpos q (hperm.mem_iff.mp hq)
  · intro q hq
    have hqd : q ∈ d := hperm.mem_iff.mp hq
    have : q = (q.1, q.2) := rfl
    exact dictGet_of_mem hnd (this ▸ hqd)
  · have hle : (sortListBy leKey d).Pairwise (fun a b => a.1 ≤ b.1) := by
      have := @sortListBy_pairwise (Int × Int) leKey
        (by
          intro a b hab
          unfold leKey at *
          simp only [decide_eq_false_iff_not] at hab
          simp only [decide_eq_true_eq]
          omega)
        (by
          intro a b c hab hbc
          unfold leKey at *
          simp only [decide_eq_true_eq] at *
          omega)
        d
      exact this.imp (by
        intro a b h
        unfold leKey at h
        simpa using h)
    have hne : (sortListBy leKey d).Pairwise (fun a b => a.1 ≠ b.1) :=
      List.pairwise_map.mp hsnd
    exact (hle.and hne).imp (fun h => lt_of_le_of_ne h.1 h.2)
  · exact (hperm.map Prod.snd).sum_eq

theorem drop_lowest_spec (p : DicePouch) (n : Int)
    (hd : p.dropped = []) (hnd : (dictKeys p.dice).Nodup)
    (hpos : ∀ q ∈ p.dice, 1 ≤ q.2) (hn : 0 ≤ n) :
    (p.drop_lowest n).dropped = takeDrop (sortListBy leKey p.dice) n ∧
    (p.drop_lowest n).dice =
      cleanupZeros (decrementAll p.dice (takeDrop (sortListBy leKey p.dice) n))
        (takeDrop (sortListBy leKey p.dice) n) := by
  rcases sorted_dice_facts p.dice hnd hpos with ⟨hsnd, hspos, hagree, hsort, hssum⟩
  have hloop := dropLoop_eq (sortListBy leKey p.dice) p.dice [] n hn hagree hsnd
    (by intro k _; rfl)
  simp only [DicePouch.drop_lowest, hd, hloop]
  exact ⟨rfl, rfl⟩

theorem drop_lowest_core (p : DicePouch) (n : Int)
    (hd : p.dropped = []) (hnd : (dictKeys p.dice).Nodup)
    (hpos : ∀ q ∈ p.dice, 1 ≤ q.2) (hn : 0 ≤ n) :
    sumCounts (p.drop_lowest n).dropped = min n (sumCounts p.dice) ∧
    sumCounts (p.drop_lowest n).dice = sumCounts p.dice - min n (sumCounts p.dice) ∧
    (∀ q ∈ (p.drop_lowest n).dice, 1 ≤ q.2) ∧
    (∀ q ∈ (p.drop_lowest n).dropped, 1 ≤ q.2) ∧
    (∀ a ∈ (p.drop_lowest n).dropped, ∀ b ∈ (p.drop_lowest n).dice, a.1 ≤ b.1) ∧
    (sumCounts p.dice ≤ n → (p.drop_lowest n).dice = []) := by
  rcases drop_lowest_spec p n hd hnd hpos hn with ⟨hdr, hdc⟩
  rcases sorted_dice_facts p.dice hnd hpos with ⟨hsnd, hspos, hagree, hsort, hssum⟩
  have hperm := sortListBy_perm leKey p.dice
  have htdpair := takeDrop_pairwise (s := sortListBy leKey p.dice) (n := n) hsort
  have htdnodup : (dictKeys (takeDrop (sortListBy leKey p.dice) n)).Nodup :=
    List.pairwise_map.mpr (htdpair.imp fun h => ne_of_lt h)
  have htdcont : ∀ q ∈ takeDrop (sortListBy leKey p.dice) n,
      containsKey p.dice q.1 = true := by
    intro q hq
    rcases List.mem_map.mp (takeDrop_keys_mem hq) with ⟨w, hw, hwe⟩
    rw [containsKey_iff]
    exact hwe ▸ List.mem_map_of_mem Prod.fst (hperm.mem_iff.mp hw)
  have hgets : ∀ k, dictGet (sortListBy leKey p.dice) k = dictGet p.dice k :=
    dictGet_eq_of_perm hperm hnd hsnd
  have htdsum : sumCounts (takeDrop (sortListBy leKey p.dice) n) =
      min n (sumCounts p.dice) := by
    rw [takeDrop_sum hspos hn, hssum]
  have htdle : ∀ k, dictGet (takeDrop (sortListBy leKey p.dice) n) k ≤
      dictGet p.dice k := by
    intro k
    by_cases hk : containsKey (takeDrop (sortListBy leKey p.dice) n) k
    · rcases List.mem_map.mp ((containsKey_iff _ k).mp hk) with ⟨q, hq, hqe⟩
      have h1 : dictGet (takeDrop (sortListBy leKey p.dice) n) q.1 = q.2 :=
        dictGet_of_mem htdnodup hq
      rcases takeDrop_mem hspos hn hq with ⟨hq1, c, hcs, hqle⟩
      have h2 : dictGet (sortListBy leKey p.dice) q.1 = c := dictGet_of_mem hsnd hcs
      rw [← hqe, h1, ← hgets, h2]
      exact hqle
    · rw [dictGet_eq_zero_of_not_contains (Bool.eq_false_iff.mpr hk)]
      exact dictGet_nonneg (fun q hq => by have := hpos q hq; omega) k
  have htdnn : ∀ k, 0 ≤ dictGet (takeDrop (sortListBy leKey p.dice) n) k :=
    dictGet_nonneg (fun q hq => by
      have := (takeDrop_mem hspos hn hq).1; omega)
  have hdecnd : (dictKeys (decrementAll p.dice
      (takeDrop (sortListBy leKey p.dice) n))).Nodup := by
    rw [dictKeys_decrementAll htdcont]; exact hnd
  have hdecget := dictGet_decrementAll
    (d := p.dice) (l := takeDrop (sortListBy leKey p.dice) n) htdnodup
  have hgetpos : ∀ k ∈ dictKeys p.dice, 1 ≤ dictGet p.dice k := by
    intro k hk
    rcases List.mem_map.mp hk with ⟨w, hw, hwe⟩
    have := hpos w hw
    rw [← hwe, dictGet_of_mem hnd hw]
    omega
  have hz : ∀ q ∈ decrementAll p.dice (takeDrop (sortListBy leKey p.dice) n),
      q.2 = 0 → q.1 ∈ dictKeys (takeDrop (sortListBy leKey p.dice) n) := by
    intro q hq hq0
    have hqv := dictGet_of_mem hdecnd hq
    rw [hdecget] at hqv
    have hkq : q.1 ∈ dictKeys p.dice := by
      rw [← dictKeys_decrementAll htdcont]
      exact mem_keys_of_mem hq
    have h1 := hgetpos q.1 hkq
    have : dictGet (takeDrop (sortListBy leKey p.dice) n) q.1 ≠ 0 := by omega
    exact (containsKey_iff _ q.1).mp (contains_of_dictGet_ne_zero this)
  have hcleansub : ∀ q ∈ cleanupZeros
        (decrementAll p.dice (takeDrop (sortListBy leKey p.dice) n))
        (takeDrop (sortListBy leKey p.dice) n),
      q ∈ decrementAll p.dice (takeDrop (sortListBy leKey p.dice) n) :=
    fun q hq => cleanupZeros_subset hq
  have hcleanzero := cleanupZeros_no_zero hdecnd hz
  refine ⟨?_, ?_, ?_, ?_, ?_, ?_⟩
  · rw [hdr]; exact htdsum
  · rw [hdc, cleanupZeros_sum hdecnd, sumCounts_decrementAll hnd htdcont, htdsum]
  · intro q hq
    rw [hdc] at hq
    have h0 := hcleanzero q hq
    have hmem := hcleansub q hq
    have hqv := dictGet_of_mem hdecnd hmem
    rw [hdecget] at hqv
    have := htdle q.1
    have := htdnn q.1
    have hkq : q.1 ∈ dictKeys p.dice := by
      rw [← dictKeys_decrementAll htdcont]
      exact mem_keys_of_mem hmem
    have := hgetpos q.1 hkq
    omega
  · intro q hq
    rw [hdr] at hq
    exact (takeDrop_mem hspos hn hq).1
  · intro a ha b hb
    rw [hdr] at ha
    rw [hdc] at hb
    have hb0 := hcleanzero b hb
    have hbmem := hcleansub b hb
    have hbv := dictGet_of_mem hdecnd hbmem
    rw [hdecget] at hbv
    by_contra hab
    push_neg at hab
    have hkb : b.1 ∈ dictKeys p.dice := by
      rw [← dictKeys_decrementAll htdcont]
      exact mem_keys_of_mem hbmem
    have hkbs : b.1 ∈ dictKeys (sortListBy leKey p.dice) :=
      (hperm.map Prod.fst).mem_iff.mpr hkb
    rcases List.mem_map.mp hkbs with ⟨w, hw, hwe⟩
    have hfull := takeDrop_below_full hsort a ha w hw (by rw [hwe]; exact hab)
    have hws : dictGet (sortListBy leKey p.dice) w.1 = w.2 := dictGet_of_mem hsnd hw
    rw [hwe] at hfull hws
    rw [hgets] at hws
    omega
  · intro hbig
    rw [hdc]
    have htd_all : takeDrop (sortListBy leKey p.dice) n = sortListBy leKey p.dice :=
      takeDrop_all hspos (by rw [hssum]; exact hbig)
    have hzero : ∀ q ∈ decrementAll p.dice (takeDrop (sortListBy leKey p.dice) n),
        q.2 = 0 := by
      intro q hq
      have hqv := dictGet_of_mem hdecnd hq
      rw [hdecget] at hqv
      have hkq : q.1 ∈ dictKeys p.dice := by
        rw [← dictKeys_decrementAll htdcont]
        exact mem_keys_of_mem hq
      rw [htd_all, hgets] at hqv
      omega
    rw [List.eq_nil_iff_forall_not_mem]
    intro q hq
    exact hcleanzero q hq (hzero q (hcleansub q hq))

/-! ## Dice-construction errors and `_roll_dice` -/

/-- The `DiceError` hierarchy of the plugin, as a closed datatype. -/
inductive DiceError where
  | invalidDiceFaces (faces : Int)
  | negativeDiceCount (count : Int)
  | tooManyDice (requested available : Int)
  | unableToDropDice (dropped total : Int)
deriving DecidableEq

/-- `_roll_dice` once the integer groups have been converted: validation in
source order, pouch construction (with its rolls oracle), then the optional
drop.  `drop = some z` models a matched `v`-group with value `z`. -/
def rollDiceChecked (dice_num dice_type : Int) (drop : Option Int)
    (rolls : List Int) : Except DiceError DicePouch :=
  if dice_type ≤ 0 then .error (.invalidDiceFaces dice_type)
  else if dice_num < 0 then .error (.negativeDiceCount dice_num)
  else if dice_num > MAX_DICE then .error (.tooManyDice dice_num MAX_DICE)
  else
    let dice := DicePouch.make dice_num dice_type rolls
    match drop with
    | none => .ok dice
    | some z =>
      if z ≥ 0 then .ok (dice.drop_lowest z)
      else .error (.unableToDropDice z dice_num)

/-! ## The dice-notation scanner (`dice_regexp`, `re.finditer`, `re.sub`) -/

/-- One regex match: the three named groups, as raw text. -/
structure DiceMatch where
  dice_num : List Char
  dice_type : List Char
  drop_lowest : Option (List Char)
deriving DecidableEq

/-- Greedy `\d*`: split off the leading run of digits. -/
def spanDigits (s : List Char) : List Char × List Char :=
  (s.takeWhile Char.isDigit, s.dropWhile Char.isDigit)

/-- The group `-?\d*` (never fails; may match the empty string or a bare
minus sign). -/
def matchNumGroup (s : List Char) : List Char × List Char :=
  match s with
  | '-' :: rest => ('-' :: (spanDigits rest).1, (spanDigits rest).2)
  | _ => spanDigits s

/-- The group `-?\d+` (fails when no digit follows the optional sign). -/
def matchSignedInt (s : List Char) : Option (List Char × List Char) :=
  match s with
  | '-' :: rest =>
    match spanDigits rest with
    | ([], _) => none
    | (ds, r) => some ('-' :: ds, r)
  | _ =>
    match spanDigits s with
    | ([], _) => none
    | (ds, r) => some (ds, r)

/-- The letters matched case-insensitively (`re.IGNORECASE`). -/
def isDLetter (c : Char) : Bool := c == 'd' || c == 'D'

def isVLetter (c : Char) : Bool := c == 'v' || c == 'V'

/-- Attempt to match `dice_regexp` at the start of `s`; on success return the
groups and the remainder of the string after the match. -/
def matchDiceAt (s : List Char) : Option (DiceMatch × List Char) :=
  let numG := matchNumGroup s
  match numG.2 with
  | [] => none
  | c :: s2 =>
    if isDLetter c then
      match matchSignedInt s2 with
      | none => none
      | some (typeG, s3) =>
        match s3 with
        | v :: s4 =>
          if isVLetter v then
            match matchSignedInt s4 with
            | none => some (⟨numG.1, typeG, none⟩, s3)
            | some (dropG, s5) => some (⟨numG.1, typeG, some dropG⟩, s5)
          else some (⟨numG.1, typeG, none⟩, s3)
        | [] => some (⟨numG.1, typeG, none⟩, s3)
    else none

/-- `re.finditer(dice_regexp, s)`: scan left to right, emitting each
non-overlapping match.  The fuel argument (always at least `s.length` at the
top call) only serves termination: every step consumes at least one
character. -/
def findIterAux : Nat → List Char → List DiceMatch
  | 0, _ => []
  | _ + 1, [] => []
  | fuel + 1, c :: rest =>
    match matchDiceAt (c :: rest) with
    | some (m, r) => m :: findIterAux fuel r
    | none => findIterAux fuel rest

def findIterDice (s : List Char) : List DiceMatch :=
  findIterAux s.length s

/-- `re.sub(dice_regexp, "%s", s)`: same scan, replacing each match by the
placeholder `%s` and keeping all other characters. -/
def reSubAux : Nat → List Char → List Char
  | 0, s => s
  | _ + 1, [] => []
  | fuel + 1, c :: rest =>
    match matchDiceAt (c :: rest) with
    | some (_, r) => '%' :: 's' :: reSubAux fuel r
    | none => c :: reSubAux fuel rest

def reSubDice (s : List Char) : List Char :=
  reSubAux s.length s

/-- `arg_str_raw.replace("%", "%%")`. -/
def escapePercent (s : List Char) : List Char :=
  s.foldr (fun c acc => if c = '%' then '%' :: '%' :: acc else c :: acc) []

/-- Python `str.strip()`. -/
def pyStrip (s : List Char) : List Char :=
  ((s.dropWhile Char.isWhitespace).reverse.dropWhile Char.isWhitespace).reverse

/-- Python `s.split("#", 1)[0]`: the text before the first `#`, or all of
`s` when there is none. -/
def splitHashFirst : List Char → List Char
  | [] => []
  | c :: rest => if c = '#' then [] else c :: splitHashFirst rest

/-- The text after the first `#` (what the spec sentence claims is kept).
Modelled from the spec: it has no counterpart in the code, which keeps the
text before the delimiter instead. -/
def afterFirstHash (s : List Char) : List Char :=
  (s.dropWhile (fun c => c != '#')).drop 1

/-- `arg_str_raw` in `roll`: comment split then `strip()`. -/
def rollArgStrRaw (input : List Char) : List Char :=
  pyStrip (splitHashFirst input)

/-- The dice expressions found by `roll` for a given trigger text. -/
def rollMatches (input : List Char) : List DiceMatch :=
  findIterDice (rollArgStrRaw input)

/-- `arg_str` after `%`-escaping and `re.sub`: the substitution template. -/
def rollTemplate (input : List Char) : List Char :=
  reSubDice (escapePercent (rollArgStrRaw input))

/-- Python `int(text)` on regex-group text: optional sign plus digits;
`none` models the `ValueError` that `int("-")` or `int("")` raises. -/
def pyInt (s : List Char) : Option Int :=
  match s with
  | [] => none
  | '-' :: rest =>
    if rest ≠ [] ∧ rest.all Char.isDigit then
      some (-(rest.foldl (fun a c => a * 10 + ((c.toNat : Int) - 48)) 0))
    else none
  | _ =>
    if s.all Char.isDigit then
      some (s.foldl (fun a c => a * 10 + ((c.toNat : Int) - 48)) 0)
    else none

/-- Python `"%s..." % values` restricted to the `%s` / `%%` forms used by
`roll`. -/
def pyFormatS : List Char → List (List Char) → List Char
  | [], _ => []
  | '%' :: '%' :: rest, args => '%' :: pyFormatS rest args
  | '%' :: 's' :: rest, a :: args => a ++ pyFormatS rest args
  | '%' :: 's' :: rest, [] => []
  | c :: rest, args => c :: pyFormatS rest args

/-- Errors escaping `_roll_dice` as seen from the `roll` command handler:
either a `DiceError` (caught and reported) or the uncaught `ValueError`
raised by `int()` on a malformed group. -/
inductive RollError where
  | dice (e : DiceError)
  | valueError
deriving DecidableEq

/-- `_roll_dice(dice_match)`: group extraction with `int()` conversions
(`dice_num or 1` makes the empty count default to 1), then the checked
construction and optional drop. -/
def rollDiceMatch (m : DiceMatch) (rolls : List Int) : Except RollError DicePouch :=
  match (if m.dice_num = [] then some 1 else pyInt m.dice_num) with
  | none => .error .valueError
  | some dice_num =>
    match pyInt m.dice_type with
    | none => .error .valueError
    | some dice_type =>
      match m.drop_lowest with
      | none => (rollDiceChecked dice_num dice_type none rolls).mapError .dice
      | some g =>
        match pyInt g with
        | none => .error .valueError
        | some z => (rollDiceChecked dice_num dice_type (some z) rolls).mapError .dice

instance {ε α : Type} [DecidableEq ε] [DecidableEq α] : DecidableEq (Except ε α) := by
  intro x y
  cases x <;> cases y
  case error.error a b =>
    exact if h : a = b then isTrue (by rw [h]) else isFalse (by intro he; cases he; exact h rfl)
  case error.ok a b => exact isFalse (by intro he; cases he)
  case ok.error a b => exact isFalse (by intro he; cases he)
  case ok.ok a b =>
    exact if h : a = b then isTrue (by rw [h]) else isFalse (by intro he; cases he; exact h rfl)

/-! ## Weekly high-score store (`dice_highscores` table and its helpers) -/

/-- `WEEK_SECONDS = 7 * 24 * 60 * 60`. -/
def WEEK_SECONDS : Int := 7 * 24 * 60 * 60

/-- One row of the `dice_highscores` table. -/
structure HSRow where
  channel : String
  nick : String
  score : Int
  set_at : Int
deriving DecidableEq

/-- The table, as the list of its rows. -/
abbrev HSDb := List HSRow

/-- `_purge_expired`: `DELETE FROM dice_highscores WHERE set_at < now - WEEK`. -/
def purgeExpired (now : Int) (db : HSDb) : HSDb :=
  db.filter (fun r => !decide (r.set_at < now - WEEK_SECONDS))

/-- `SELECT score, set_at ... WHERE channel = ? AND nick = ?` + `fetchone()`. -/
def selectRow (db : HSDb) (channel nick : String) : Option HSRow :=
  db.find? (fun r => r.channel == channel && r.nick == nick)

/-- `REPLACE INTO dice_highscores(...)`: the conflicting row (same primary
key) is deleted and the fresh row inserted. -/
def replaceRow (channel nick : String) (score set_at : Int) (db : HSDb) : HSDb :=
  db.filter (fun r => !(r.channel == channel && r.nick == nick)) ++
    [⟨channel, nick, score, set_at⟩]

/-- `_update_highscore(bot, channel, nick, score, now)`: returns the previous
valid score (or `none`) together with the updated table. -/
def updateHighscore (channel nick : String) (score now : Int) (db : HSDb) :
    Option Int × HSDb :=
  let db1 := purgeExpired now db
  let prev : Option Int :=
    match selectRow db1 channel nick with
    | some r => if r.set_at ≥ now - WEEK_SECONDS then some r.score else none
    | none => none
  match prev with
  | none => (none, replaceRow channel nick score now db1)
  | some p => if score > p then (some p, replaceRow channel nick score now db1)
    else (some p, db1)

/-- The row lookup performed by the `my_highscore` command: purge, select,
and treat a missing or expired row as absent. -/
def myHighscoreLookup (channel nick : String) (now : Int) (db : HSDb) :
    Option (Int × Int) :=
  let db1 := purgeExpired now db
  match selectRow db1 channel nick with
  | none => none
  | some r => if r.set_at < now - WEEK_SECONDS then none else some (r.score, r.set_at)

/-- `ORDER BY score DESC, set_at ASC`. -/
def hsOrder (a b : HSRow) : Bool :=
  decide (b.score < a.score) || (a.score == b.score && decide (a.set_at ≤ b.set_at))

/-- `_get_channel_highscores(bot, channel, limit)`. -/
def getChannelHighscores (channel : String) (now : Int) (limit : Nat) (db : HSDb) :
    List (String × Int × Int) :=
  let db1 := purgeExpired now db
  let rows := db1.filter
    (fun r => r.channel == channel && decide (r.set_at ≥ now - WEEK_SECONDS))
  ((sortListBy hsOrder rows).take limit).map (fun r => (r.nick, r.score, r.set_at))

/-- The primary-key constraint `PRIMARY KEY(channel, nick)`: at most one row
per (channel, nick) pair. -/
def keyUnique (db : HSDb) : Prop :=
  (db.map (fun r => (r.channel, r.nick))).Nodup

instance (db : HSDb) : Decidable (keyUnique db) := by
  unfold keyUnique
  infer_instance

theorem selectRow_nil (channel nick : String) : selectRow [] channel nick = none := rfl

theorem selectRow_cons (r : HSRow) (db : HSDb) (channel nick : String) :
    selectRow (r :: db) channel nick =
      if r.channel = channel ∧ r.nick = nick then some r
      else selectRow db channel nick := by
  by_cases h : r.channel = channel ∧ r.nick = nick
  · simp [selectRow, List.find?_cons, h.1, h.2, h]
  · have hb : (r.channel == channel && r.nick == nick) = false := by
      simp only [Bool.and_eq_false_iff, beq_eq_false_iff_ne, ne_eq]
      by_cases hc : r.channel = channel
      · exact Or.inr (fun hn => h ⟨hc, hn⟩)
      · exact Or.inl hc
    simp [selectRow, List.find?_cons, hb, h]

theorem selectRow_key {db : HSDb} {channel nick : String} {r : HSRow}
    (h : selectRow db channel nick = some r) :
    r.channel = channel ∧ r.nick = nick ∧ r ∈ db := by
  induction db with
  | nil => cases h
  | cons a db ih =>
    rw [selectRow_cons] at h
    by_cases ha : a.channel = channel ∧ a.nick = nick
    · rw [if_pos ha] at h
      cases h
      exact ⟨ha.1, ha.2, List.mem_cons_self _ _⟩
    · rw [if_neg ha] at h
      rcases ih h with ⟨h1, h2, h3⟩
      exact ⟨h1, h2, List.mem_cons_of_mem _ h3⟩

theorem selectRow_none_iff {db : HSDb} {channel nick : String} :
    selectRow db channel nick = none ↔
      ∀ r ∈ db, ¬(r.channel = channel ∧ r.nick = nick) := by
  induction db with
  | nil => simp [selectRow_nil]
  | cons a db ih =>
    rw [selectRow_cons]
    by_cases ha : a.channel = channel ∧ a.nick = nick
    · rw [if_pos ha]
      simp only [List.mem_cons]
      constructor
      · intro h; cases h
      · intro h
        exact absurd ha (h a (Or.inl rfl))
    · rw [if_neg ha]
      rw [ih]
      constructor
      · intro h r hr
        rcases List.mem_cons.mp hr with hr | hr
        · exact hr ▸ ha
        · exact h r hr
      · intro h r hr
        exact h r (List.mem_cons_of_mem _ hr)

theorem purgeExpired_mem {now : Int} {db : HSDb} {r : HSRow} :
    r ∈ purgeExpired now db ↔ r ∈ db ∧ ¬(r.set_at < now - WEEK_SECONDS) := by
  unfold purgeExpired
  rw [List.mem_filter]
  simp

theorem selectRow_purge_of_valid {db : HSDb} {channel nick : String} {r : HSRow}
    (now : Int) (h : selectRow db channel nick = some r)
    (hv : ¬(r.set_at < now - WEEK_SECONDS)) :
    selectRow (purgeExpired now db) channel nick = some r := by
  induction db with
  | nil => cases h
  | cons a db ih =>
    rw [selectRow_cons] at h
    unfold purgeExpired
    rw [List.filter_cons]
    by_cases ha : a.channel = channel ∧ a.nick = nick
    · rw [if_pos ha] at h
      cases h
      rw [if_pos (by simpa using hv)]
      rw [selectRow_cons, if_pos ha]
    · rw [if_neg ha] at h
      by_cases hk : !decide (a.set_at < now - WEEK_SECONDS)
      · rw [if_pos hk, selectRow_cons, if_neg ha]
        exact ih h
      · rw [if_neg hk]
        exact ih h

theorem selectRow_purge_of_none {db : HSDb} {channel nick : String} (now : Int)
    (h : selectRow db channel nick = none) :
    selectRow (purgeExpired now db) channel nick = none := by
  rw [selectRow_none_iff] at h ⊢
  intro r hr
  exact h r (purgeExpired_mem.mp hr).1

theorem keyUnique_eq {db : HSDb} (hKU : keyUnique db) {a b : HSRow}
    (ha : a ∈ db) (hb : b ∈ db) (hc : a.channel = b.channel) (hn : a.nick = b.nick) :
    a = b := by
  unfold keyUnique at hKU
  induction db with
  | nil => cases ha
  | cons x db ih =>
    rw [List.map_cons, List.nodup_cons] at hKU
    rcases List.mem_cons.mp ha with ha' | ha' <;> rcases List.mem_cons.mp hb with hb' | hb'
    · rw [ha', hb']
    · exfalso
      apply hKU.1
      rw [List.mem_map]
      exact ⟨b, hb', by rw [← ha', hc, hn]⟩
    · exfalso
      apply hKU.1
      rw [List.mem_map]
      exact ⟨a, ha', by rw [← hb', ← hc, ← hn]⟩
    · exact ih hKU.2 ha' hb'

theorem selectRow_purge_of_expired {db : HSDb} {channel nick : String} {r : HSRow}
    {now : Int} (hKU : keyUnique db) (h : selectRow db channel nick = some r)
    (he : r.set_at < now - WEEK_SECONDS) :
    selectRow (purgeExpired now db) channel nick = none := by
  rcases selectRow_key h with ⟨hc, hn, hmem⟩
  rw [selectRow_none_iff]
  intro x hx hxk
  rcases purgeExpired_mem.mp hx with ⟨hxdb, hxv⟩
  have : x = r := keyUnique_eq hKU hxdb hmem (hxk.1.trans hc.symm) (hxk.2.trans hn.symm)
  rw [this] at hxv
  exact hxv he

theorem selectRow_append_single (db : HSDb) (channel nick : String) (row : HSRow)
    (h : ∀ r ∈ db, ¬(r.channel = channel ∧ r.nick = nick))
    (hrow : row.channel = channel ∧ row.nick = nick) :
    selectRow (db ++ [row]) channel nick = some row := by
  induction db with
  | nil =>
    rw [List.nil_append, selectRow_cons, if_pos hrow]
  | cons a db ih =>
    rw [List.cons_append, selectRow_cons,
      if_neg (h a (List.mem_cons_self _ _))]
    exact ih (fun r hr => h r (List.mem_cons_of_mem _ hr))

theorem selectRow_replaceRow (db : HSDb) (channel nick : String) (score set_at : Int) :
    selectRow (replaceRow channel nick score set_at db) channel nick =
      some ⟨channel, nick, score, set_at⟩ := by
  unfold replaceRow
  apply selectRow_append_single
  · intro r hr
    rcases List.mem_filter.mp hr with ⟨_, hcond⟩
    simp only [Bool.not_eq_eq_eq_not, Bool.not_true, Bool.and_eq_false_iff] at hcond
    rintro ⟨h1, h2⟩
    rcases hcond with hcond | hcond
    · rw [← beq_iff_eq (a := r.channel)] at h1
      rw [h1] at hcond
      cases hcond
    · rw [← beq_iff_eq (a := r.nick)] at h2
      rw [h2] at hcond
      cases hcond
  · exact ⟨rfl, rfl⟩

theorem updateHighscore_of_none (channel nick : String) (score now : Int) (db : HSDb)
    (h : selectRow (purgeExpired now db) channel nick = none) :
    updateHighscore channel nick score now db =
      (none, replaceRow channel nick score now (purgeExpired now db)) := by
  simp only [updateHighscore]
  rw [h]

theorem valid_of_selectRow_purge {channel nick : String} {now : Int} {db : HSDb}
    {r : HSRow} (h : selectRow (purgeExpired now db) channel nick = some r) :
    r.set_at ≥ now - WEEK_SECONDS := by
  have hmem := (selectRow_key h).2.2
  have := (purgeExpired_mem.mp hmem).2
  omega

theorem updateHighscore_of_some (channel nick : String) (score now : Int) (db : HSDb)
    (r : HSRow) (h : selectRow (purgeExpired now db) channel nick = some r) :
    updateHighscore channel nick score now db =
      if score > r.score
      then (some r.score, replaceRow channel nick score now (purgeExpired now db))
      else (some r.score, purgeExpired now db) := by
  have hv := valid_of_selectRow_purge h
  simp only [updateHighscore]
  rw [h]
  show (match (if r.set_at ≥ now - WEEK_SECONDS then some r.score else none) with
    | none => (none, replaceRow channel nick score now (purgeExpired now db))
    | some p =>
      if score > p then (some p, replaceRow channel nick score now (purgeExpired now db))
      else (some p, purgeExpired now db)) =
    if score > r.score then (some r.score, replaceRow channel nick score now (purgeExpired now db))
    else (some r.score, purgeExpired now db)
  rw [if_pos hv]

theorem myHighscoreLookup_of_none (channel nick : String) (now : Int) (db : HSDb)
    (h : selectRow (purgeExpired now db) channel nick = none) :
    myHighscoreLookup channel nick now db = none := by
  simp only [myHighscoreLookup]
  rw [h]

theorem myHighscoreLookup_of_some (channel nick : String) (now : Int) (db : HSDb)
    (r : HSRow) (h : selectRow (purgeExpired now db) channel nick = some r) :
    myHighscoreLookup channel nick now db = some (r.score, r.set_at) := by
  have hv := valid_of_selectRow_purge h
  simp only [myHighscoreLookup]
  rw [h]
  show (if r.set_at < now - WEEK_SECONDS then none else some (r.score, r.set_at)) = _
  rw [if_neg (by omega)]

theorem getChannelHighscores_mem_of (channel : String) (now : Int) (limit : Nat)
    (db : HSDb) (r : HSRow) (hmem : r ∈ db) (hch : r.channel = channel)
    (hv : now - WEEK_SECONDS ≤ r.set_at) (hlim : db.length ≤ limit) :
    (r.nick, r.score, r.set_at) ∈ getChannelHighscores channel now limit db := by
  unfold getChannelHighscores
  apply List.mem_map_of_mem
  have hp : r ∈ purgeExpired now db := purgeExpired_mem.mpr ⟨hmem, by omega⟩
  have hf : r ∈ (purgeExpired now db).filter
      (fun r => r.channel == channel && decide (r.set_at ≥ now - WEEK_SECONDS)) := by
    rw [List.mem_filter]
    refine ⟨hp, ?_⟩
    rw [Bool.and_eq_true]
    exact ⟨beq_iff_eq.mpr hch, by simpa using hv⟩
  have hs : r ∈ sortListBy hsOrder ((purgeExpired now db).filter
      (fun r => r.channel == channel && decide (r.set_at ≥ now - WEEK_SECONDS))) :=
    mem_sortListBy.mpr hf
  have hlen : (sortListBy hsOrder ((purgeExpired now db).filter
      (fun r => r.channel == channel && decide (r.set_at ≥ now - WEEK_SECONDS)))).length
      ≤ limit := by
    rw [(sortListBy_perm hsOrder _).length_eq]
    calc ((purgeExpired now db).filter _).length
        ≤ (purgeExpired now db).length := List.length_filter_le _ _
      _ ≤ db.length := List.length_filter_le _ _
      _ ≤ limit := hlim
  rw [List.take_of_length_le hlen]
  exact hs

theorem getChannelHighscores_mem_inv (channel : String) (now : Int) (limit : Nat)
    (db : HSDb) (t : String × Int × Int)
    (h : t ∈ getChannelHighscores channel now limit db) :
    ∃ x ∈ db, x.channel = channel ∧ x.nick = t.1 ∧ x.score = t.2.1 ∧
      x.set_at = t.2.2 ∧ now - WEEK_SECONDS ≤ x.set_at := by
  unfold getChannelHighscores at h
  rcases List.mem_map.mp h with ⟨x, hx, hxe⟩
  have hx2 : x ∈ sortListBy hsOrder ((purgeExpired now db).filter
      (fun r => r.channel == channel && decide (r.set_at ≥ now - WEEK_SECONDS))) :=
    List.take_subset _ _ hx
  have hx3 := mem_sortListBy.mp hx2
  rcases List.mem_filter.mp hx3 with ⟨hx4, hcond⟩
  rw [Bool.and_eq_true] at hcond
  refine ⟨x, (purgeExpired_mem.mp hx4).1, beq_iff_eq.mp hcond.1, ?_, ?_, ?_, ?_⟩
  · rw [← hxe]
  · rw [← hxe]
  · rw [← hxe]
  · have := hcond.2
    simpa using this

/-! ## Claim theorems -/

/-- C1: for every room, user, score and time `now`, `_update_highscore`
returns `none` when no `(room, user)` row exists or the existing row is
expired (`set_at < now - 7d`), and then stores `(score, now)`; when a valid
row with stored score `≥ score` exists, no write happens beyond the purge
and the stored score is returned; otherwise the row is replaced by
`(score, set_at = now)` and the prior valid score is returned.  The spec's
three-step scenario on an empty store holds for every base time `T`. -/
theorem C1_update_highscore (channel nick : String) (score now : Int) (db : HSDb)
    (hKU : keyUnique db) :
    ((selectRow db channel nick = none ∨
        (∃ r, selectRow db channel nick = some r ∧ r.set_at < now - WEEK_SECONDS)) →
      (updateHighscore channel nick score now db).1 = none ∧
      selectRow (updateHighscore channel nick score now db).2 channel nick =
        some ⟨channel, nick, score, now⟩) ∧
    (∀ r, selectRow db channel nick = some r → now - WEEK_SECONDS ≤ r.set_at →
      score ≤ r.score →
      (updateHighscore channel nick score now db).1 = some r.score ∧
      (updateHighscore channel nick score now db).2 = purgeExpired now db) ∧
    (∀ r, selectRow db channel nick = some r → now - WEEK_SECONDS ≤ r.set_at →
      r.score < score →
      (updateHighscore channel nick score now db).1 = some r.score ∧
      selectRow (updateHighscore channel nick score now db).2 channel nick =
        some ⟨channel, nick, score, now⟩) ∧
    (∀ T : Int,
      (updateHighscore "#a" "bob" 10 T []).1 = none ∧
      (updateHighscore "#a" "bob" 10 T []).2 = [⟨"#a", "bob", 10, T⟩] ∧
      (updateHighscore "#a" "bob" 5 (T + 10)
        (updateHighscore "#a" "bob" 10 T []).2).1 = some 10 ∧
      (updateHighscore "#a" "bob" 5 (T + 10)
        (updateHighscore "#a" "bob" 10 T []).2).2 = [⟨"#a", "bob", 10, T⟩] ∧
      (updateHighscore "#a" "bob" 15 (T + 20)
        (updateHighscore "#a" "bob" 5 (T + 10)
          (updateHighscore "#a" "bob" 10 T []).2).2).1 = some 10 ∧
      (updateHighscore "#a" "bob" 15 (T + 20)
        (updateHighscore "#a" "bob" 5 (T + 10)
          (updateHighscore "#a" "bob" 10 T []).2).2).2 =
        [⟨"#a", "bob", 15, T + 20⟩]) := by
  refine ⟨?_, ?_, ?_, ?_⟩
  · rintro (hnone | ⟨r, hsel, hexp⟩)
    · have h := selectRow_purge_of_none now hnone
      rw [updateHighscore_of_none channel nick score now db h]
      exact ⟨rfl, selectRow_replaceRow _ channel nick score now⟩
    · have h := selectRow_purge_of_expired hKU hsel hexp
      rw [updateHighscore_of_none channel nick score now db h]
      exact ⟨rfl, selectRow_replaceRow _ channel nick score now⟩
  · intro r hsel hv hge
    have h := selectRow_purge_of_valid now hsel (by omega)
    rw [updateHighscore_of_some channel nick score now db r h, if_neg (by omega)]
    exact ⟨rfl, rfl⟩
  · intro r hsel hv hlt
    have h := selectRow_purge_of_valid now hsel (by omega)
    rw [updateHighscore_of_some channel nick score now db r h, if_pos (by omega)]
    exact ⟨rfl, selectRow_replaceRow _ channel nick score now⟩
  · intro T
    have h1 : updateHighscore "#a" "bob" 10 T [] =
        (none, [⟨"#a", "bob", 10, T⟩]) := by
      rw [updateHighscore_of_none "#a" "bob" 10 T [] rfl]
      rfl
    have hpurge2 : purgeExpired (T + 10) [(⟨"#a", "bob", 10, T⟩ : HSRow)] =
        [⟨"#a", "bob", 10, T⟩] := by
      apply List.filter_eq_self.mpr
      intro a ha
      rw [List.mem_singleton] at ha
      subst ha
      show (!decide (T < T + 10 - WEEK_SECONDS)) = true
      rw [decide_eq_false (by unfold WEEK_SECONDS; omega)]
      rfl
    have hsel2 : selectRow (purgeExpired (T + 10) [(⟨"#a", "bob", 10, T⟩ : HSRow)])
        "#a" "bob" = some ⟨"#a", "bob", 10, T⟩ := by
      rw [hpurge2, selectRow_cons, if_pos ⟨rfl, rfl⟩]
    have h2 : updateHighscore "#a" "bob" 5 (T + 10) [(⟨"#a", "bob", 10, T⟩ : HSRow)] =
        (some 10, [⟨"#a", "bob", 10, T⟩]) := by
      rw [updateHighscore_of_some "#a" "bob" 5 (T + 10) _ _ hsel2,
        if_neg (by norm_num), hpurge2]
    have hpurge3 : purgeExpired (T + 20) [(⟨"#a", "bob", 10, T⟩ : HSRow)] =
        [⟨"#a", "bob", 10, T⟩] := by
      apply List.filter_eq_self.mpr
      intro a ha
      rw [List.mem_singleton] at ha
      subst ha
      show (!decide (T < T + 20 - WEEK_SECONDS)) = true
      rw [decide_eq_false (by unfold WEEK_SECONDS; omega)]
      rfl
    have hsel3 : selectRow (purgeExpired (T + 20) [(⟨"#a", "bob", 10, T⟩ : HSRow)])
        "#a" "bob" = some ⟨"#a", "bob", 10, T⟩ := by
      rw [hpurge3, selectRow_cons, if_pos ⟨rfl, rfl⟩]
    have h3 : updateHighscore "#a" "bob" 15 (T + 20) [(⟨"#a", "bob", 10, T⟩ : HSRow)] =
        (some 10, [⟨"#a", "bob", 15, T + 20⟩]) := by
      rw [updateHighscore_of_some "#a" "bob" 15 (T + 20) _ _ hsel3,
        if_pos (by norm_num), hpurge3]
      rfl
    rw [h1]
    refine ⟨rfl, rfl, ?_, ?_, ?_, ?_⟩
    · rw [h2]
    · rw [h2]
    · rw [h2]
      rw [h3]
    · rw [h2]
      rw [h3]

/-- Witness for C1: concrete valid row with a lower new score — the update
returns the stored score `5` and performs no write beyond the purge. -/
theorem C1_update_highscore_witness :
    keyUnique [(⟨"#a", "bob", 5, 50⟩ : HSRow)] ∧
    (updateHighscore "#a" "bob" 3 100 [(⟨"#a", "bob", 5, 50⟩ : HSRow)]).1 = some 5 ∧
    (updateHighscore "#a" "bob" 3 100 [(⟨"#a", "bob", 5, 50⟩ : HSRow)]).2 =
      purgeExpired 100 [(⟨"#a", "bob", 5, 50⟩ : HSRow)] := by
  refine ⟨by decide, ?_, ?_⟩
  · exact ((C1_update_highscore "#a" "bob" 3 100 [⟨"#a", "bob", 5, 50⟩]
      (by decide)).2.1 ⟨"#a", "bob", 5, 50⟩ (by decide) (by decide) (by decide)).1
  · exact ((C1_update_highscore "#a" "bob" 3 100 [⟨"#a", "bob", 5, 50⟩]
      (by decide)).2.1 ⟨"#a", "bob", 5, 50⟩ (by decide) (by decide) (by decide)).2

/-- C2 counterexample: an entry whose age is exactly 7 days
(`set_at = 0`, `now = 604800 = WEEK_SECONDS`) still counts toward lookup,
toward update's previous-score result and toward the leaderboard, so the
claim that such an entry does not count is false on the code. -/
theorem C2_boundary_counterexample :
    (604800 : Int) - 0 = WEEK_SECONDS ∧
    myHighscoreLookup "#a" "bob" 604800 [(⟨"#a", "bob", 5, 0⟩ : HSRow)] =
      some (5, 0) ∧
    (updateHighscore "#a" "bob" 3 604800 [(⟨"#a", "bob", 5, 0⟩ : HSRow)]).1 =
      some 5 ∧
    ("bob", 5, 0) ∈
      getChannelHighscores "#a" 604800 10 [(⟨"#a", "bob", 5, 0⟩ : HSRow)] := by
  decide

/-- C2 (amended): a stored entry counts toward lookup, toward update's
previous-score result, and toward the leaderboard iff
`now - set_at ≤ 7 days` (equivalently `set_at ≥ now - 7d`); in particular
an entry exactly 7 days old still counts. -/
theorem C2_validity_window (channel nick : String) (now : Int) (limit : Nat)
    (db : HSDb) (r : HSRow) (hKU : keyUnique db)
    (hsel : selectRow db channel nick = some r) (hlim : db.length ≤ limit) :
    (myHighscoreLookup channel nick now db = some (r.score, r.set_at) ↔
      now - r.set_at ≤ WEEK_SECONDS) ∧
    (∀ s : Int, ((updateHighscore channel nick s now db).1 = some r.score ↔
      now - r.set_at ≤ WEEK_SECONDS)) ∧
    ((r.nick, r.score, r.set_at) ∈ getChannelHighscores channel now limit db ↔
      now - r.set_at ≤ WEEK_SECONDS) := by
  rcases selectRow_key hsel with ⟨hch, hni, hmem⟩
  refine ⟨⟨?_, ?_⟩, ?_, ⟨?_, ?_⟩⟩
  · intro h
    by_cases hv : now - r.set_at ≤ WEEK_SECONDS
    · exact hv
    · exfalso
      have hexp : r.set_at < now - WEEK_SECONDS := by omega
      rw [myHighscoreLookup_of_none channel nick now db
        (selectRow_purge_of_expired hKU hsel hexp)] at h
      cases h
  · intro hv
    exact myHighscoreLookup_of_some channel nick now db r
      (selectRow_purge_of_valid now hsel (by omega))
  · intro s
    constructor
    · intro h
      by_cases hv : now - r.set_at ≤ WEEK_SECONDS
      · exact hv
      · exfalso
        have hexp : r.set_at < now - WEEK_SECONDS := by omega
        rw [updateHighscore_of_none channel nick s now db
          (selectRow_purge_of_expired hKU hsel hexp)] at h
        cases h
    · intro hv
      rw [updateHighscore_of_some channel nick s now db r
        (selectRow_purge_of_valid now hsel (by omega))]
      by_cases hgt : s > r.score
      · rw [if_pos hgt]
      · rw [if_neg hgt]
  · intro h
    rcases getChannelHighscores_mem_inv channel now limit db _ h with
      ⟨x, hx, hxc, hxn, hxs, hxt, hxv⟩
    have : x = r := keyUnique_eq hKU hx hmem (hxc.trans hch.symm)
      ((hxn : x.nick = r.nick))
    rw [this] at hxv
    omega
  · intro hv
    exact getChannelHighscores_mem_of channel now limit db r hmem hch (by omega) hlim

/-- Witness for C2 (amended): a concrete valid entry is returned by the
lookup, counted by update, and listed on the leaderboard. -/
theorem C2_validity_window_witness :
    myHighscoreLookup "#a" "bob" 100 [(⟨"#a", "bob", 5, 50⟩ : HSRow)] =
      some (5, 50) ∧
    ("bob", 5, 50) ∈
      getChannelHighscores "#a" 100 10 [(⟨"#a", "bob", 5, 50⟩ : HSRow)] := by
  have h := C2_validity_window "#a" "bob" 100 10 [⟨"#a", "bob", 5, 50⟩]
    ⟨"#a", "bob", 5, 50⟩ (by decide) (by decide) (by decide)
  exact ⟨h.1.mpr (by decide), h.2.2.mpr (by decide)⟩

theorem make_dice (c f : Int) (rolls : List Int) :
    (DicePouch.make c f rolls).dice = rollDiceDict rolls := rfl

theorem make_dropped (c f : Int) (rolls : List Int) :
    (DicePouch.make c f rolls).dropped = [] := rfl

/-- C3: for a pouch constructed with `0 ≤ count ≤ 1000` dice of `faces ≥ 1`
sides (the random draws `rolls` obeying the `randint` contract), both right
after construction and after any `drop_lowest(n)` with `n ≥ 0`, the per-face
counts of `kept` and `dropped` sum to `count` and no per-face count is
negative. -/
theorem C3_partition (count faces n : Int) (rolls : List Int)
    (h0 : 0 ≤ count) (h1 : count ≤ 1000) (hf : 1 ≤ faces)
    (hlen : (rolls.length : Int) = count)
    (hr : ∀ x ∈ rolls, 1 ≤ x ∧ x ≤ faces) (hn : 0 ≤ n) :
    (sumCounts (DicePouch.make count faces rolls).dice +
        sumCounts (DicePouch.make count faces rolls).dropped = count ∧
      (∀ q ∈ (DicePouch.make count faces rolls).dice, 0 ≤ q.2) ∧
      (∀ q ∈ (DicePouch.make count faces rolls).dropped, 0 ≤ q.2)) ∧
    (sumCounts ((DicePouch.make count faces rolls).drop_lowest n).dice +
        sumCounts ((DicePouch.make count faces rolls).drop_lowest n).dropped = count ∧
      (∀ q ∈ ((DicePouch.make count faces rolls).drop_lowest n).dice, 0 ≤ q.2) ∧
      (∀ q ∈ ((DicePouch.make count faces rolls).drop_lowest n).dropped, 0 ≤ q.2)) := by
  have hsum : sumCounts (DicePouch.make count faces rolls).dice = count := by
    rw [make_dice, rollDiceDict_sum, hlen]
  have hcore := drop_lowest_core (DicePouch.make count faces rolls) n
    (make_dropped count faces rolls)
    (by rw [make_dice]; exact rollDiceDict_nodup rolls)
    (by rw [make_dice]; exact rollDiceDict_pos rolls) hn
  rcases hcore with ⟨hc1, hc2, hc3, hc4, _, _⟩
  refine ⟨⟨?_, ?_, ?_⟩, ?_, ?_, ?_⟩
  · rw [make_dropped, sumCounts_nil, hsum]
    ring
  · intro q hq
    rw [make_dice] at hq
    have := rollDiceDict_pos rolls q hq
    omega
  · intro q hq
    rw [make_dropped] at hq
    cases hq
  · rw [hc1, hc2, hsum]
    omega
  · intro q hq
    have := hc3 q hq
    omega
  · intro q hq
    have := hc4 q hq
    omega

/-- Witness for C3: two six-sided dice rolled as 3 and 5, dropping one. -/
theorem C3_partition_witness :
    sumCounts ((DicePouch.make 2 6 [3, 5]).drop_lowest 1).dice +
      sumCounts ((DicePouch.make 2 6 [3, 5]).drop_lowest 1).dropped = 2 :=
  (C3_partition 2 6 1 [3, 5] (by decide) (by decide) (by decide) (by decide)
    (by decide) (by decide)).2.1

/-- C4: for `0 ≤ n ≤ count`, `drop_lowest(n)` moves exactly `n` dice from
`kept` (leaving `count - n`) into `dropped`, and every dropped face value is
`≤` every remaining kept face value (the smallest faces are removed first). -/
theorem C4_drop_lowest_moves_n (count faces n : Int) (rolls : List Int)
    (hf : 1 ≤ faces) (hlen : (rolls.length : Int) = count)
    (hr : ∀ x ∈ rolls, 1 ≤ x ∧ x ≤ faces) (hn0 : 0 ≤ n) (hn1 : n ≤ count) :
    sumCounts ((DicePouch.make count faces rolls).drop_lowest n).dropped = n ∧
    sumCounts ((DicePouch.make count faces rolls).drop_lowest n).dice = count - n ∧
    (∀ a ∈ ((DicePouch.make count faces rolls).drop_lowest n).dropped,
      ∀ b ∈ ((DicePouch.make count faces rolls).drop_lowest n).dice, a.1 ≤ b.1) := by
  have hsum : sumCounts (DicePouch.make count faces rolls).dice = count := by
    rw [make_dice, rollDiceDict_sum, hlen]
  have hcore := drop_lowest_core (DicePouch.make count faces rolls) n
    (make_dropped count faces rolls)
    (by rw [make_dice]; exact rollDiceDict_nodup rolls)
    (by rw [make_dice]; exact rollDiceDict_pos rolls) hn0
  rcases hcore with ⟨hc1, hc2, _, _, hc5, _⟩
  rw [hsum] at hc1 hc2
  refine ⟨?_, ?_, hc5⟩
  · rw [hc1]
    omega
  · rw [hc2]
    omega

/-- Witness for C4: rolls 3, 5, 3 with `n = 2` — the two lowest dice (both
threes) are dropped, one die with face 5 stays. -/
theorem C4_drop_lowest_moves_n_witness :
    sumCounts ((DicePouch.make 3 6 [3, 5, 3]).drop_lowest 2).dropped = 2 ∧
    sumCounts ((DicePouch.make 3 6 [3, 5, 3]).drop_lowest 2).dice = 3 - 2 := by
  have h := C4_drop_lowest_moves_n 3 6 2 [3, 5, 3] (by decide) (by decide)
    (by decide) (by decide) (by decide)
  exact ⟨h.1, h.2.1⟩

/-- C6: a drop count `n > count` drains `kept` entirely into `dropped`
without any error, and `UnableToDropDice` is produced by `_roll_dice` for a
negative drop count only. -/
theorem C6_overdrain (count faces n : Int) (rolls : List Int)
    (h0 : 0 ≤ count) (h1 : count ≤ 1000) (hf : 1 ≤ faces)
    (hlen : (rolls.length : Int) = count)
    (hr : ∀ x ∈ rolls, 1 ≤ x ∧ x ≤ faces) (hgt : count < n) :
    ((DicePouch.make count faces rolls).drop_lowest n).dice = [] ∧
    sumCounts ((DicePouch.make count faces rolls).drop_lowest n).dropped = count ∧
    (∀ z : Int, 0 ≤ z →
      rollDiceChecked count faces (some z) rolls =
        .ok ((DicePouch.make count faces rolls).drop_lowest z)) ∧
    (∀ z : Int, z < 0 →
      rollDiceChecked count faces (some z) rolls =
        .error (.unableToDropDice z count)) := by
  have hsum : sumCounts (DicePouch.make count faces rolls).dice = count := by
    rw [make_dice, rollDiceDict_sum, hlen]
  have hcore := drop_lowest_core (DicePouch.make count faces rolls) n
    (make_dropped count faces rolls)
    (by rw [make_dice]; exact rollDiceDict_nodup rolls)
    (by rw [make_dice]; exact rollDiceDict_pos rolls) (by omega)
  rcases hcore with ⟨hc1, _, _, _, _, hc6⟩
  refine ⟨hc6 (by omega), ?_, ?_, ?_⟩
  · rw [hc1, hsum]
    omega
  · intro z hz
    unfold rollDiceChecked
    rw [if_neg (by omega), if_neg (by omega),
      if_neg (by unfold MAX_DICE; omega)]
    show (if z ≥ 0
        then Except.ok ((DicePouch.make count faces rolls).drop_lowest z)
        else Except.error (DiceError.unableToDropDice z count)) = _
    rw [if_pos (by omega)]
  · intro z hz
    unfold rollDiceChecked
    rw [if_neg (by omega), if_neg (by omega),
      if_neg (by unfold MAX_DICE; omega)]
    show (if z ≥ 0
        then Except.ok ((DicePouch.make count faces rolls).drop_lowest z)
        else Except.error (DiceError.unableToDropDice z count)) = _
    rw [if_neg (by omega)]

/-- Witness for C6: two dice, drop request 5 — the pouch drains fully and
the checked constructor still succeeds. -/
theorem C6_overdrain_witness :
    ((DicePouch.make 2 6 [3, 5]).drop_lowest 5).dice = [] ∧
    sumCounts ((DicePouch.make 2 6 [3, 5]).drop_lowest 5).dropped = 2 := by
  have h := C6_overdrain 2 6 5 [3, 5] (by decide) (by decide) (by decide)
    (by decide) (by decide) (by decide)
  exact ⟨h.1, h.2.1⟩

/-- C10: every face key of the kept dict has a strictly positive count,
both after construction and after any `drop_lowest(n)` with `n ≥ 0` — a
fully dropped face group is deleted from `kept`, not left at zero. -/
theorem C10_kept_positive (count faces n : Int) (rolls : List Int)
    (hf : 1 ≤ faces) (hlen : (rolls.length : Int) = count)
    (hr : ∀ x ∈ rolls, 1 ≤ x ∧ x ≤ faces) (hn : 0 ≤ n) :
    (∀ q ∈ (DicePouch.make count faces rolls).dice, 0 < q.2) ∧
    (∀ q ∈ ((DicePouch.make count faces rolls).drop_lowest n).dice, 0 < q.2) := by
  have hcore := drop_lowest_core (DicePouch.make count faces rolls) n
    (make_dropped count faces rolls)
    (by rw [make_dice]; exact rollDiceDict_nodup rolls)
    (by rw [make_dice]; exact rollDiceDict_pos rolls) hn
  refine ⟨?_, ?_⟩
  · intro q hq
    rw [make_dice] at hq
    have := rollDiceDict_pos rolls q hq
    omega
  · intro q hq
    have := hcore.2.2.1 q hq
    omega

/-- Witness for C10: rolls 3, 3, 5 with one die dropped — the remaining
face-3 group is present with a strictly positive count. -/
theorem C10_kept_positive_witness :
    ((3, 1) : Int × Int) ∈ ((DicePouch.make 3 6 [3, 3, 5]).drop_lowest 1).dice ∧
    (0 : Int) < ((3, 1) : Int × Int).2 := by
  refine ⟨by decide, ?_⟩
  exact (C10_kept_positive 3 6 1 [3, 3, 5] (by decide) (by decide) (by decide)
    (by decide)).2 (3, 1) (by decide)

/-- C5: `_roll_dice` validation for every parsed `(count, faces)` pair and
every rolls oracle — `faces ≤ 0` fails with `InvalidDiceFaces` before any
other check (the count is unconstrained there), `count < 0` fails with
`NegativeDiceCount` once `faces ≥ 1`, `count > 1000` fails with
`TooManyDice(count, 1000)`, and in every other case construction succeeds,
yielding `count` dice whose faces all lie in `[1, faces]` whenever the
draws obey the `randint(1, faces)` contract.  The spec's concrete cases
(`faces = 0`, `faces = -3`, `count = -1`, `count = 1001`) are included. -/
theorem C5_roll_dice_validation (count faces : Int) (rolls : List Int) :
    (faces ≤ 0 → rollDiceChecked count faces none rolls =
      .error (.invalidDiceFaces faces)) ∧
    (1 ≤ faces → count < 0 → rollDiceChecked count faces none rolls =
      .error (.negativeDiceCount count)) ∧
    (1 ≤ faces → 1000 < count → rollDiceChecked count faces none rolls =
      .error (.tooManyDice count 1000)) ∧
    (1 ≤ faces → 0 ≤ count → count ≤ 1000 →
      rollDiceChecked count faces none rolls =
        .ok (DicePouch.make count faces rolls) ∧
      (DicePouch.make count faces rolls).dropped = [] ∧
      ((rolls.length : Int) = count →
        sumCounts (DicePouch.make count faces rolls).dice = count) ∧
      ((∀ x ∈ rolls, 1 ≤ x ∧ x ≤ faces) →
        ∀ q ∈ (DicePouch.make count faces rolls).dice,
          1 ≤ q.1 ∧ q.1 ≤ faces ∧ 1 ≤ q.2)) ∧
    (rollDiceChecked (-1) 0 none [] = .error (.invalidDiceFaces 0)) ∧
    (rollDiceChecked 1 (-3) none [] = .error (.invalidDiceFaces (-3))) ∧
    (rollDiceChecked (-1) 6 none [] = .error (.negativeDiceCount (-1))) ∧
    (rollDiceChecked 1001 6 none [] = .error (.tooManyDice 1001 1000)) := by
  refine ⟨?_, ?_, ?_, ?_, by decide, by decide, by decide, by decide⟩
  · intro h
    unfold rollDiceChecked
    rw [if_pos h]
  · intro hf h
    unfold rollDiceChecked
    rw [if_neg (by omega), if_pos h]
  · intro hf h
    unfold rollDiceChecked
    rw [if_neg (by omega), if_neg (by omega), if_pos (by unfold MAX_DICE; omega)]
    rfl
  · intro hf h0 h1
    refine ⟨?_, make_dropped count faces rolls, ?_, ?_⟩
    · unfold rollDiceChecked
      rw [if_neg (by omega), if_neg (by omega),
        if_neg (by unfold MAX_DICE; omega)]
    · intro hlen
      rw [make_dice, rollDiceDict_sum, hlen]
    · intro hr q hq
      rw [make_dice] at hq
      have hface := rollDiceDict_keys_mem rolls q hq
      have hpos := rollDiceDict_pos rolls q hq
      rcases hr q.1 hface with ⟨ha, hb⟩
      exact ⟨ha, hb, hpos⟩

/-- Witness for C5: a genuinely negative dice count (`-5`) produces
`NegativeDiceCount`, and two valid six-sided dice rolled 1 and 6 succeed. -/
theorem C5_roll_dice_validation_witness :
    rollDiceChecked (-5) 6 none [1] = .error (.negativeDiceCount (-5)) ∧
    rollDiceChecked 2 6 none [1, 6] = .ok (DicePouch.make 2 6 [1, 6]) ∧
    sumCounts (DicePouch.make 2 6 [1, 6]).dice = 2 := by
  refine ⟨?_, ?_, ?_⟩
  · exact (C5_roll_dice_validation (-5) 6 [1]).2.1 (by decide) (by decide)
  · exact ((C5_roll_dice_validation 2 6 [1, 6]).2.2.2.1 (by decide) (by decide)
      (by decide)).1
  · exact ((C5_roll_dice_validation 2 6 [1, 6]).2.2.2.1 (by decide) (by decide)
      (by decide)).2.2.1 (by decide)

theorem splitHashFirst_eq_takeWhile (s : List Char) :
    splitHashFirst s = s.takeWhile (fun c => c != '#') := by
  induction s with
  | nil => rfl
  | cons c rest ih =>
    by_cases h : c = '#' <;>
      simp [splitHashFirst, List.takeWhile_cons, h, ih]

/-- C7 counterexample: for the input `1d4#2d6` the code matches dice tokens
in the text before the `#` (giving one d4 expression), not in the text after
it (which would give one d6 expression) — so the claim that the text
preceding the delimiter is discarded is false on the code. -/
theorem C7_comment_counterexample :
    rollMatches ("1d4#2d6".toList) = [⟨['1'], ['4'], none⟩] ∧
    findIterDice (pyStrip (afterFirstHash ("1d4#2d6".toList))) =
      [⟨['2'], ['6'], none⟩] ∧
    rollMatches ("1d4#2d6".toList) ≠
      findIterDice (pyStrip (afterFirstHash ("1d4#2d6".toList))) := by
  decide

/-- C7 (amended): for every input, the text `roll` scans for dice tokens is
the stripped longest prefix of the input that precedes the first `#` — the
text following the delimiter is discarded, so tokens are matched only in
the text before it. -/
theorem C7_comment_split (input : List Char) :
    rollArgStrRaw input = pyStrip (input.takeWhile (fun c => c != '#')) ∧
    rollMatches input =
      findIterDice (pyStrip (input.takeWhile (fun c => c != '#'))) := by
  have h := splitHashFirst_eq_takeWhile input
  unfold rollMatches rollArgStrRaw
  rw [h]
  exact ⟨rfl, rfl⟩

/-- C8 counterexample: for `2d6+3` the template produced by the `re.sub`
pass is `%s+3` — the placeholder is not parenthesised, so the claimed
template `(%s)+3` is wrong. -/
theorem C8_template_counterexample :
    rollTemplate ("2d6+3".toList) = "%s+3".toList ∧
    rollTemplate ("2d6+3".toList) ≠ "(%s)+3".toList := by
  decide

/-- C8 (amended): parsing `2d6+3` yields exactly one dice expression with
count 2, faces 6 and no drop, and the template `%s+3`; parentheses are
added to each substituted value by the evaluation renderer (`"(%d)" % sum`),
so the numeric string becomes `(7)+3` for a pouch summing to 7. -/
theorem C8_parse_2d6 :
    rollMatches ("2d6+3".toList) = [⟨['2'], ['6'], none⟩] ∧
    pyInt ['2'] = some 2 ∧
    pyInt ['6'] = some 6 ∧
    rollTemplate ("2d6+3".toList) = "%s+3".toList ∧
    pyFormatS ("%s+3".toList) ["(7)".toList] = "(7)+3".toList := by
  decide

/-- C9: the input `-d6` is accepted by the dice-token grammar with count
group `-`; `int("-")` fails, which `rollDiceMatch` reports as the uncaught
`ValueError` — a failure outside the `DiceError` taxonomy, so the `roll`
handler (which catches only `DiceError`) does not catch it. -/
theorem C9_minus_d6_value_error :
    rollMatches ("-d6".toList) = [⟨['-'], ['6'], none⟩] ∧
    (['-'] : List Char) ≠ [] ∧
    pyInt ['-'] = none ∧
    rollDiceMatch ⟨['-'], ['6'], none⟩ [] = .error .valueError ∧
    (∀ e : DiceError, RollError.valueError ≠ RollError.dice e) := by
  refine ⟨by decide, by decide, by decide, by decide, fun e h => by cases h⟩
